import Mathlib

/-!
Verification development of the brandyBox sync engine
(`client-tauri/src-tauri/src/sync.rs`, function `run_sync`, plus the error
classification contract of `api.rs::download_file`).

Shallow embedding conventions:
* Relative paths are `String`; file contents are `List Nat` (byte values).
* Modification times are `Int` (only their ordering matters to the code).
* SHA-256 is an abstract parameter `hashB : List Nat → String`; the code only
  compares digests for equality.
* Rust `HashMap`/`HashSet` values are association lists / deduplicated lists;
  `collect` on a `HashMap` keeps the last binding for a key, modelled by
  looking the reversed list up.  Iteration order of hash sets is
  unspecified in Rust; the embedding fixes a deterministic order and no
  theorem below depends on the order except where the source itself sorts.
* Filesystem and network effects are oracles in `SyncEnv`; each call the
  Rust code makes is recorded as an event so that theorems can speak about
  which calls happened and whether the state file was saved.
* `list_local` output and the actual filesystem are separate inputs, as the
  Rust code re-checks the filesystem after the initial listing.
-/

/-- Byte string: file contents. -/
abbrev Bytes := List Nat

/-- Local filesystem: association list path → contents.  Every entry models a
regular file (directories are not materialised; the empty-directory cleanup in
the delete-local phase does not affect the file set). -/
abbrev LocalFS := List (String × Bytes)

/-- First-match association lookup (used for maps maintained by
insert-with-replace, and — on the reversed list — for Rust `collect`). -/
def alGet : List (String × α) → String → Option α
  | [], _ => none
  | (k, v) :: rest, p => if k = p then some v else alGet rest p

/-- Last binding wins, as Rust `HashMap` `collect` does. -/
def lastGet (l : List (String × α)) (p : String) : Option α :=
  alGet l.reverse p

/-- Insert with replace: models `HashMap::insert`. -/
def hmInsert (m : List (String × String)) (p v : String) : List (String × String) :=
  (p, v) :: m.filter (fun e => e.1 ≠ p)

/-- Boolean membership on string lists (models `HashSet::contains`). -/
def memB (p : String) (l : List String) : Bool :=
  l.any (fun q => q == p)

/-- Set difference on path lists (models `HashSet::difference`). -/
def setDiff (a b : List String) : List String :=
  a.filter (fun p => !memB p b)

/-- Set intersection on path lists (models `HashSet::intersection`). -/
def setInter (a b : List String) : List String :=
  a.filter (fun p => memB p b)

/-- Add to a list acting as a set (models `HashSet::insert`). -/
def addSet (l : List String) (p : String) : List String :=
  if memB p l then l else p :: l

/-- Does the file exist (as a regular file) in the modelled filesystem? -/
def fsExists (fs : LocalFS) (p : String) : Bool :=
  (alGet fs p).isSome

/-- Remove a file (models `std::fs::remove_file` succeeding). -/
def fsErase (fs : LocalFS) (p : String) : LocalFS :=
  fs.filter (fun e => e.1 ≠ p)

/-- Write bytes to a path (models `std::fs::write` succeeding). -/
def fsWrite (fs : LocalFS) (p : String) (b : Bytes) : LocalFS :=
  (p, b) :: fsErase fs p

/-- Substring containment, as Rust `str::contains` (byte-wise search agrees
with character-wise search on valid UTF-8). -/
def strContainsSub (s pat : String) : Bool :=
  s.data.tails.any (fun t => pat.data.isPrefixOf t)

/-- Byte-wise lexicographic comparison of character lists: the order Rust's
`sort` uses on `String` (UTF-8 byte order equals scalar-value order). -/
def charListLe : List Char → List Char → Bool
  | [], _ => true
  | _ :: _, [] => false
  | a :: as, b :: bs =>
    if a.toNat < b.toNat then true
    else if b.toNat < a.toNat then false
    else charListLe as bs

/-- Lexicographic order on strings. -/
def strLe (a b : String) : Bool :=
  charListLe a.data b.data

/-- Ordered insertion for the lexicographic sort. -/
def insertStr (x : String) : List String → List String
  | [] => [x]
  | y :: ys => if strLe x y then x :: y :: ys else y :: insertStr x ys

/-- Stable lexicographic sort, as `Vec::sort` on `String`. -/
def sortStr (l : List String) : List String :=
  l.foldr insertStr []

/-- Consecutive deduplication, as Rust `Vec::dedup`. -/
def dedupAdj : List String → List String
  | [] => []
  | [a] => [a]
  | a :: b :: l => if a = b then dedupAdj (b :: l) else a :: dedupAdj (b :: l)

/-- Path depth: number of `/` characters, as `path.matches('/').count()`. -/
def pathDepth (p : String) : Nat :=
  (p.data.filter (fun c => c = '/')).length

/-- Stable insertion for the descending-depth sort of the delete lists. -/
def insertByDepth (x : String) : List String → List String
  | [] => [x]
  | y :: ys => if pathDepth y ≤ pathDepth x then x :: y :: ys else y :: insertByDepth x ys

/-- Sort by descending path depth, as `sort_by(|a, b| depth(b).cmp(depth(a)))`. -/
def sortByDepthDesc (l : List String) : List String :=
  l.foldr insertByDepth []

/-- `SYNC_IGNORE` from sync.rs line 14. -/
def SYNC_IGNORE : List String := [".directory", "Thumbs.db", "Desktop.ini", ".DS_Store"]

/-- Backslash-to-slash normalisation, as `path_str.replace('\\', "/")`. -/
def normalizeSlashes (s : String) : String :=
  String.mk (s.data.map (fun c => if c = '\\' then '/' else c))

/-- Split a character list on `/`. -/
def splitSlash : List Char → List (List Char)
  | [] => [[]]
  | c :: cs =>
    let rest := splitSlash cs
    if c = '/' then [] :: rest
    else match rest with
      | [] => [[c]]
      | r :: rs => (c :: r) :: rs

/-- Last path component, modelling Rust `Path::file_name` on relative paths:
empty and `.` components are skipped and a trailing `..` has no file name. -/
def fileName (n : String) : String :=
  let comps := ((splitSlash n.data).map String.mk).filter (fun c => c ≠ "" && c ≠ ".")
  match comps.getLast? with
  | some c => if c = ".." then "" else c
  | none => ""

/-- `is_ignored` from sync.rs lines 25–32. -/
def is_ignored (p : String) : Bool :=
  let n := normalizeSlashes p
  if strContainsSub n "/.git/" || (".git/".data.isPrefixOf n.data) then true
  else memB (fileName n) SYNC_IGNORE

/-- Remote listing entry (`api::FileItem`). -/
structure FileItem where
  path : String
  mtime : Int
  hash : Option String
deriving DecidableEq

/-- The persisted sync-state document (`SyncStateFile` in sync.rs). -/
structure SyncStateFile where
  paths : List String
  downloaded_paths : List String
  file_hashes : List (String × String)
deriving DecidableEq

/-- Outcome of a local `std::fs::write`. -/
inductive WriteR where
  | okW
  | permDenied
  | fatalErr (msg : String)
deriving DecidableEq

/-- Observable events of one cycle: progress updates, remote calls, local
filesystem mutations, and state-file saves. -/
inductive Ev where
  | progress (phase : String) (current total : Nat)
  | deleteRemoteCall (p : String)
  | removeLocalFile (p : String)
  | writeLocalFile (p : String) (b : Bytes)
  | downloadCall (p : String)
  | uploadCall (p : String)
  | saveState (s : SyncStateFile)
deriving DecidableEq

/-- Effect oracles: what each transport call and each local write returns, and
whether an (error-ignored) `remove_file` actually removes the file. -/
structure SyncEnv where
  hashB : Bytes → String
  deleteR : String → Except String Unit
  downloadR : String → Except String Bytes
  writeR : String → WriteR
  removeOk : String → Bool
  uploadR : String → Except String Unit

/-- Inputs of one cycle: loaded state, the local listing produced by
`list_local`, the result of `list_files`, and the filesystem contents. -/
structure SyncInput where
  state0 : SyncStateFile
  localList : List (String × Int)
  listingRes : Except String (List FileItem)
  fs0 : LocalFS

/-- Mutable context threaded through the executor phases. -/
structure Cx where
  fs : LocalFS
  fileHashes : List (String × String)
  done : Nat
  trace : List Ev
  bytesDown : Nat
  bytesUp : Nat
  completedDownloads : List String
  skippedDownloads : List String
  completedUploads : List String
  skippedUploads : List String

/-- Result of `run_sync`: the Rust return value, the event trace, and the
final local filesystem. -/
structure RunResult where
  res : Except String (Nat × Nat × Option String)
  trace : List Ev
  fs : LocalFS

/-- `state.paths` as a set (sync.rs line 138). -/
def lastSynced (st : SyncStateFile) : List String :=
  st.paths.dedup

/-- Keys of `local_by_path` (sync.rs lines 152, 157). -/
def currentLocal (ll : List (String × Int)) : List String :=
  (ll.map Prod.fst).dedup

/-- Keys of `remote_by_path` (sync.rs lines 153, 158). -/
def currentRemote (rl : List FileItem) : List String :=
  (rl.map FileItem.path).dedup

/-- `remote_by_path` lookup (sync.rs line 153). -/
def remoteMt (rl : List FileItem) (p : String) : Option Int :=
  lastGet (rl.map (fun i => (i.path, i.mtime))) p

/-- `remote_hashes` lookup (sync.rs line 154). -/
def remoteHash (rl : List FileItem) (p : String) : Option String :=
  lastGet (rl.filterMap (fun i => i.hash.map (fun h => (i.path, h)))) p

/-- `remote_by_item` lookup (sync.rs line 155). -/
def remoteItem (rl : List FileItem) (p : String) : Option FileItem :=
  lastGet (rl.map (fun i => (i.path, i))) p

/-- `to_delete_remote` before the guardrail (sync.rs line 160). -/
def toDeleteRemoteRaw (st : SyncStateFile) (ll : List (String × Int)) : List String :=
  (setDiff (lastSynced st) (currentLocal ll)).filter (fun p => !is_ignored p)

/-- The mass-delete guardrail condition (sync.rs line 163). -/
def guardTriggered (st : SyncStateFile) (ll : List (String × Int)) : Bool :=
  decide (50 < (toDeleteRemoteRaw st ll).length) &&
    decide ((currentLocal ll).length < (toDeleteRemoteRaw st ll).length)

/-- `to_delete_remote` after the guardrail (sync.rs lines 163–170). -/
def toDeleteRemote (st : SyncStateFile) (ll : List (String × Int)) : List String :=
  if guardTriggered st ll then [] else toDeleteRemoteRaw st ll

/-- `to_delete_local` (sync.rs line 172) — note: not filtered by `is_ignored`. -/
def toDeleteLocal (st : SyncStateFile) (rl : List FileItem) : List String :=
  setDiff (lastSynced st) (currentRemote rl)

/-- `to_del_remote`, depth-sorted (sync.rs lines 174–175). -/
def toDelRemote (st : SyncStateFile) (ll : List (String × Int)) : List String :=
  sortByDepthDesc (toDeleteRemote st ll)

/-- `to_del_local`, depth-sorted (sync.rs lines 177–178). -/
def toDelLocal (st : SyncStateFile) (rl : List FileItem) : List String :=
  sortByDepthDesc (toDeleteLocal st rl)

/-- `total_work` (sync.rs lines 183–186): delete counts plus the *set
differences* of the listings, not the final transfer list lengths. -/
def totalWork (st : SyncStateFile) (ll : List (String × Int)) (rl : List FileItem) : Nat :=
  (toDelRemote st ll).length + (toDelLocal st rl).length
    + ((setDiff (currentRemote rl) (currentLocal ll)).filter (fun p => !is_ignored p)).length
    + ((setDiff (currentLocal ll) (currentRemote rl)).filter (fun p => !is_ignored p)).length

/-- `base_synced` (sync.rs lines 212–214). -/
def baseSynced (st : SyncStateFile) (ll : List (String × Int)) (rl : List FileItem) : List String :=
  (setInter (setDiff (currentLocal ll) (toDeleteLocal st rl))
      (setDiff (currentRemote rl) (toDeleteRemote st ll))).filter (fun p => !is_ignored p)

/-- The mtime-comparison loop of the download planner (sync.rs lines 222–240).
Returns the paths pushed onto `to_download` and the updated `file_hashes`
(line 231 inserts the server hash when the recomputed local hash matches).
`compute_file_hash` is modelled as reading the file then hashing: an absent
file and a failed read both fall through to the push, as in the source. -/
def downloadAdds (hashB : Bytes → String) (fs : LocalFS) (rh : String → Option String)
    (rmt : String → Option Int) (cr : List String) :
    List (String × Int) → List (String × String) → List String × List (String × String)
  | [], fh => ([], fh)
  | (path, lm) :: rest, fh =>
    if !is_ignored path && memB path cr then
      if lm < (rmt path).getD 0 then
        match rh path with
        | some sh =>
          match alGet fs path with
          | some b =>
            if hashB b = sh then
              downloadAdds hashB fs rh rmt cr rest (hmInsert fh path sh)
            else
              (path :: (downloadAdds hashB fs rh rmt cr rest fh).1,
                (downloadAdds hashB fs rh rmt cr rest fh).2)
          | none =>
            (path :: (downloadAdds hashB fs rh rmt cr rest fh).1,
              (downloadAdds hashB fs rh rmt cr rest fh).2)
        | none =>
          (path :: (downloadAdds hashB fs rh rmt cr rest fh).1,
            (downloadAdds hashB fs rh rmt cr rest fh).2)
      else downloadAdds hashB fs rh rmt cr rest fh
    else downloadAdds hashB fs rh rmt cr rest fh

/-- `to_download` construction (sync.rs lines 216–242): remote-only files
minus planned remote deletions, plus the mtime-loop additions, sorted and
deduplicated.  Also returns the `file_hashes` map as mutated by the loop. -/
def toDownloadPlan (hashB : Bytes → String) (fs : LocalFS) (st : SyncStateFile)
    (ll : List (String × Int)) (rl : List FileItem) (fh : List (String × String)) :
    List String × List (String × String) :=
  let td0 := ((setDiff (currentRemote rl) (currentLocal ll)).filter
      (fun p => !is_ignored p)).filter (fun p => !memB p (toDelRemote st ll))
  (dedupAdj (sortStr (td0 ++
      (downloadAdds hashB fs (remoteHash rl) (remoteMt rl) (currentRemote rl) ll fh).1)),
    (downloadAdds hashB fs (remoteHash rl) (remoteMt rl) (currentRemote rl) ll fh).2)

/-- Upload filter predicate (sync.rs lines 248–265): remote-absent paths are
included; otherwise a matching recomputed hash skips the upload, else the
local mtime must be strictly newer. -/
def uploadPred (hashB : Bytes → String) (fs : LocalFS) (rl : List FileItem)
    (path : String) (lm : Int) : Bool :=
  match remoteItem rl path with
  | none => true
  | some r =>
    let hashSkip :=
      match r.hash with
      | some sh =>
        match alGet fs path with
        | some b => decide (hashB b = sh)
        | none => false
      | none => false
    if hashSkip then false else decide (r.mtime < lm)

/-- `to_upload` (sync.rs lines 245–268). -/
def toUploadPlan (hashB : Bytes → String) (fs : LocalFS)
    (ll : List (String × Int)) (rl : List FileItem) : List String :=
  (ll.filter (fun pe => !is_ignored pe.1 && uploadPred hashB fs rl pe.1 pe.2)).map Prod.fst

/-- Delete-remote phase (sync.rs lines 189–193): progress before each item,
then the delete call; any transport error is fatal. -/
def delRemotePhase (env : SyncEnv) (total : Nat) :
    List String → Cx → Except (String × Cx) Cx
  | [], cx => .ok cx
  | p :: ps, cx =>
    match env.deleteR p with
    | .error e => .error ("Delete server " ++ p ++ ": " ++ e,
        { cx with
          trace := cx.trace ++
            [Ev.progress "delete_server" cx.done total, Ev.deleteRemoteCall p] })
    | .ok _ => delRemotePhase env total ps
        { cx with
          trace := cx.trace ++
            [Ev.progress "delete_server" cx.done total, Ev.deleteRemoteCall p],
          done := cx.done + 1 }

/-- Delete-local phase (sync.rs lines 194–210): remove the file if present;
removal errors are ignored (`removeOk` says whether the file actually went
away); never fatal.  Empty-ancestor-directory cleanup has no effect on the
file set and is not modelled. -/
def delLocalPhase (env : SyncEnv) (total : Nat) : List String → Cx → Cx
  | [], cx => cx
  | p :: ps, cx =>
    if fsExists cx.fs p then
      delLocalPhase env total ps
        { cx with
          trace := cx.trace ++
            [Ev.progress "delete_local" cx.done total, Ev.removeLocalFile p],
          fs := if env.removeOk p then fsErase cx.fs p else cx.fs,
          done := cx.done + 1 }
    else
      delLocalPhase env total ps
        { cx with
          trace := cx.trace ++ [Ev.progress "delete_local" cx.done total],
          done := cx.done + 1 }

/-- Download phase (sync.rs lines 282–334).  Two short-circuits, then
the transport call; a permission-denied write or an error whose message
contains "404" is tolerated (the latter deleting the local copy); every
other failure aborts.  On success the *server's* hash is stored (the content
hash of the body is computed and discarded in the source). -/
def downloadPhase (env : SyncEnv) (total : Nat) (prevD : List String)
    (rh : String → Option String) : List String → Cx → Except (String × Cx) Cx
  | [], cx => .ok cx
  | p :: ps, cx =>
    if memB p prevD && fsExists cx.fs p then
      downloadPhase env total prevD rh ps
        { cx with
          trace := cx.trace ++ [Ev.progress "download" cx.done total],
          done := cx.done + 1 }
    else if (match rh p with
             | some h => alGet cx.fileHashes p == some h && fsExists cx.fs p
             | none => false) then
      downloadPhase env total prevD rh ps
        { cx with
          trace := cx.trace ++ [Ev.progress "download" cx.done total],
          done := cx.done + 1 }
    else
      match env.downloadR p with
      | .ok body =>
        match env.writeR p with
        | .permDenied =>
          downloadPhase env total prevD rh ps
            { cx with
              trace := cx.trace ++
                [Ev.progress "download" cx.done total, Ev.downloadCall p],
              bytesDown := cx.bytesDown + body.length,
              skippedDownloads := addSet cx.skippedDownloads p,
              done := cx.done + 1 }
        | .fatalErr e => .error ("Download " ++ p ++ ": " ++ e,
            { cx with
              trace := cx.trace ++
                [Ev.progress "download" cx.done total, Ev.downloadCall p],
              bytesDown := cx.bytesDown + body.length })
        | .okW =>
          downloadPhase env total prevD rh ps
            { cx with
              trace := cx.trace ++
                [Ev.progress "download" cx.done total, Ev.downloadCall p,
                  Ev.writeLocalFile p body],
              bytesDown := cx.bytesDown + body.length,
              fs := fsWrite cx.fs p body,
              completedDownloads := addSet cx.completedDownloads p,
              fileHashes :=
                match rh p with
                | some h => hmInsert cx.fileHashes p h
                | none => cx.fileHashes,
              done := cx.done + 1 }
      | .error e =>
        if strContainsSub e "404" then
          if fsExists cx.fs p then
            downloadPhase env total prevD rh ps
              { cx with
                trace := cx.trace ++
                  [Ev.progress "download" cx.done total, Ev.downloadCall p,
                    Ev.removeLocalFile p],
                fs := if env.removeOk p then fsErase cx.fs p else cx.fs,
                skippedDownloads := addSet cx.skippedDownloads p,
                done := cx.done + 1 }
          else
            downloadPhase env total prevD rh ps
              { cx with
                trace := cx.trace ++
                  [Ev.progress "download" cx.done total, Ev.downloadCall p],
                skippedDownloads := addSet cx.skippedDownloads p,
                done := cx.done + 1 }
        else .error ("Download " ++ p ++ ": " ++ e,
          { cx with
            trace := cx.trace ++
              [Ev.progress "download" cx.done total, Ev.downloadCall p] })

/-- Upload phase (sync.rs lines 353–369): skip a vanished file (non-fatal);
any transport error is fatal. -/
def uploadPhase (env : SyncEnv) (total : Nat) :
    List String → Cx → Except (String × Cx) Cx
  | [], cx => .ok cx
  | p :: ps, cx =>
    if fsExists cx.fs p then
      match env.uploadR p with
      | .error e => .error ("Upload " ++ p ++ ": " ++ e,
          { cx with
            trace := cx.trace ++
              [Ev.progress "upload" cx.done total, Ev.uploadCall p],
            bytesUp := cx.bytesUp + ((alGet cx.fs p).getD []).length })
      | .ok _ =>
        uploadPhase env total ps
          { cx with
            trace := cx.trace ++
              [Ev.progress "upload" cx.done total, Ev.uploadCall p],
            bytesUp := cx.bytesUp + ((alGet cx.fs p).getD []).length,
            completedUploads := addSet cx.completedUploads p,
            done := cx.done + 1 }
    else
      uploadPhase env total ps
        { cx with
          trace := cx.trace ++ [Ev.progress "upload" cx.done total],
          skippedUploads := addSet cx.skippedUploads p,
          done := cx.done + 1 }

/-- Initial executor context: loaded state hashes, initial filesystem, and
the listing progress update already published (sync.rs lines 137–143). -/
def initCx (st0 : SyncStateFile) (fs0 : LocalFS) : Cx :=
  { fs := fs0, fileHashes := st0.file_hashes, done := 0,
    trace := [Ev.progress "listing" 0 0], bytesDown := 0, bytesUp := 0,
    completedDownloads := [], skippedDownloads := [],
    completedUploads := [], skippedUploads := [] }

/-- The committed state document (sync.rs lines 399–408): verified base plus
completed transfers, `downloaded_paths` cleared, mutated `file_hashes`. -/
def commitState (st0 : SyncStateFile) (ll : List (String × Int)) (rl : List FileItem)
    (cx5 : Cx) : SyncStateFile :=
  { paths := sortStr ((baseSynced st0 ll rl ++ cx5.completedDownloads
        ++ cx5.completedUploads).dedup),
    downloaded_paths := [],
    file_hashes := cx5.fileHashes }

/-- Commit step (sync.rs lines 371–424): build the warning message, persist
the new state, publish idle progress and return the byte totals. -/
def commitResult (st0 : SyncStateFile) (ll : List (String × Int)) (rl : List FileItem)
    (cx5 : Cx) : RunResult :=
  let warnings :=
    (if cx5.skippedDownloads.isEmpty then [] else
      [toString cx5.skippedDownloads.length ++
        " download(s) skipped (permission denied or file gone on server)"]) ++
    (if cx5.skippedUploads.isEmpty then [] else
      [toString cx5.skippedUploads.length ++
        " upload(s) skipped (files removed during sync)"])
  let warningMsg := if warnings.isEmpty then none
    else some (String.intercalate "; " warnings)
  { res := .ok (cx5.bytesDown, cx5.bytesUp, warningMsg),
    trace := cx5.trace ++
      [Ev.saveState (commitState st0 ll rl cx5), Ev.progress "idle" 0 0],
    fs := cx5.fs }

/-- One cycle after a successful listing (sync.rs lines 145–424): delete
remote, delete local, build the transfer plan (the download planner reads the
post-delete filesystem and mutates `file_hashes`; the upload plan is built
before the download phase runs), download, upload, commit.  A fatal error at
any point returns immediately, before the state file is saved. -/
def runCycle (env : SyncEnv) (st0 : SyncStateFile) (ll : List (String × Int))
    (rl : List FileItem) (fs0 : LocalFS) : RunResult :=
  match delRemotePhase env (totalWork st0 ll rl) (toDelRemote st0 ll) (initCx st0 fs0) with
  | .error (e, cx) => { res := .error e, trace := cx.trace, fs := cx.fs }
  | .ok cx1 =>
    let cx2 := delLocalPhase env (totalWork st0 ll rl) (toDelLocal st0 rl) cx1
    match downloadPhase env (totalWork st0 ll rl) st0.downloaded_paths.dedup (remoteHash rl)
        (toDownloadPlan env.hashB cx2.fs st0 ll rl cx2.fileHashes).1
        { cx2 with fileHashes := (toDownloadPlan env.hashB cx2.fs st0 ll rl cx2.fileHashes).2 } with
    | .error (e, cx) => { res := .error e, trace := cx.trace, fs := cx.fs }
    | .ok cx4 =>
      match uploadPhase env (totalWork st0 ll rl) (toUploadPlan env.hashB cx2.fs ll rl) cx4 with
      | .error (e, cx) => { res := .error e, trace := cx.trace, fs := cx.fs }
      | .ok cx5 => commitResult st0 ll rl cx5

/-- `run_sync` (sync.rs lines 136–425): load state, list, reconcile, execute,
commit; any fatal error returns before `save_sync_state` is reached. -/
def run_sync (env : SyncEnv) (inp : SyncInput) : RunResult :=
  match inp.listingRes with
  | .error e => { res := .error e, trace := [Ev.progress "listing" 0 0], fs := inp.fs0 }
  | .ok rl => runCycle env inp.state0 inp.localList rl inp.fs0

/-- States written by `save_sync_state` during the cycle, in order. -/
def savedStates (tr : List Ev) : List SyncStateFile :=
  tr.filterMap (fun e => match e with | .saveState s => some s | _ => none)

/-- Remote delete calls performed during the cycle, in order. -/
def deleteCalls (tr : List Ev) : List String :=
  tr.filterMap (fun e => match e with | .deleteRemoteCall p => some p | _ => none)

/-- Progress updates published during the cycle, in order. -/
def progressEvents (tr : List Ev) : List (String × Nat × Nat) :=
  tr.filterMap (fun e => match e with | .progress ph c t => some (ph, c, t) | _ => none)

deriving instance DecidableEq for Except

/-! ### Basic lemmas about the set / map helpers -/

theorem memB_iff {p : String} {l : List String} : memB p l = true ↔ p ∈ l := by
  simp [memB, List.any_eq_true, beq_iff_eq]

theorem memB_eq_false {p : String} {l : List String} : memB p l = false ↔ p ∉ l := by
  rw [← memB_iff]
  cases memB p l <;> simp

theorem mem_setDiff {p : String} {a b : List String} :
    p ∈ setDiff a b ↔ p ∈ a ∧ p ∉ b := by
  simp [setDiff, List.mem_filter, memB_eq_false]

theorem mem_setInter {p : String} {a b : List String} :
    p ∈ setInter a b ↔ p ∈ a ∧ p ∈ b := by
  simp [setInter, List.mem_filter, memB_iff]

theorem mem_addSet {q p : String} {l : List String} :
    q ∈ addSet l p ↔ q = p ∨ q ∈ l := by
  by_cases h : memB p l = true
  · simp only [addSet, h, if_pos]
    constructor
    · exact Or.inr
    · rintro (rfl | hq)
      · exact memB_iff.mp h
      · exact hq
  · simp only [addSet, Bool.not_eq_true] at h ⊢
    rw [h]
    simp [List.mem_cons]

theorem mem_insertStr {q x : String} {l : List String} :
    q ∈ insertStr x l ↔ q = x ∨ q ∈ l := by
  induction l with
  | nil => simp [insertStr]
  | cons y ys ih =>
    by_cases h : strLe x y
    · simp [insertStr, h, List.mem_cons]
    · simp [insertStr, h, List.mem_cons, ih]
      tauto

theorem mem_sortStr {q : String} {l : List String} : q ∈ sortStr l ↔ q ∈ l := by
  induction l with
  | nil => simp [sortStr]
  | cons x xs ih =>
    simp only [sortStr, List.foldr_cons] at *
    rw [mem_insertStr, ih, List.mem_cons]

theorem mem_insertByDepth {q x : String} {l : List String} :
    q ∈ insertByDepth x l ↔ q = x ∨ q ∈ l := by
  induction l with
  | nil => simp [insertByDepth]
  | cons y ys ih =>
    by_cases h : pathDepth y ≤ pathDepth x
    · simp [insertByDepth, h, List.mem_cons]
    · simp [insertByDepth, h, List.mem_cons, ih]
      tauto

theorem mem_sortByDepthDesc {q : String} {l : List String} :
    q ∈ sortByDepthDesc l ↔ q ∈ l := by
  induction l with
  | nil => simp [sortByDepthDesc]
  | cons x xs ih =>
    simp only [sortByDepthDesc, List.foldr_cons] at *
    rw [mem_insertByDepth, ih, List.mem_cons]

theorem mem_dedupAdj {q : String} {l : List String} : q ∈ dedupAdj l ↔ q ∈ l := by
  induction l with
  | nil => simp [dedupAdj]
  | cons x xs ih =>
    cases xs with
    | nil => simp [dedupAdj]
    | cons y ys =>
      by_cases h : x = y
      · subst h
        have hd : dedupAdj (x :: x :: ys) = dedupAdj (x :: ys) := by simp [dedupAdj]
        rw [hd, ih]
        simp only [List.mem_cons]
        tauto
      · have hd : dedupAdj (x :: y :: ys) = x :: dedupAdj (y :: ys) := by simp [dedupAdj, h]
        rw [hd]
        simp only [List.mem_cons]
        rw [ih, List.mem_cons]

theorem alGet_filter_ne {m : List (String × String)} {p q : String} (h : q ≠ p) :
    alGet (m.filter (fun e => e.1 ≠ p)) q = alGet m q := by
  induction m with
  | nil => rfl
  | cons e rest ih =>
    cases e with
    | mk k v =>
      by_cases hk : k = p
      · rw [List.filter_cons_of_neg (by simp [hk]), ih]
        simp only [alGet]
        rw [if_neg (fun hq : k = q => h (hq ▸ hk ▸ rfl))]
      · rw [List.filter_cons_of_pos (by simp [hk])]
        simp only [alGet]
        by_cases hq : k = q
        · rw [if_pos hq, if_pos hq]
        · rw [if_neg hq, if_neg hq]
          exact ih

theorem alGet_hmInsert {m : List (String × String)} {p v q : String} :
    alGet (hmInsert m p v) q = if p = q then some v else alGet m q := by
  by_cases h : p = q
  · simp [hmInsert, alGet, h]
  · simp only [hmInsert, alGet, if_neg h]
    exact alGet_filter_ne (fun hq => h hq.symm)

/-! ### Event classification and trace composition -/

/-- Context carried by a phase result, whether it succeeded or aborted. -/
def cxOf : Except (String × Cx) Cx → Cx
  | .ok cx => cx
  | .error (_, cx) => cx

/-- The event is not a state-file save. -/
def evNoSave : Ev → Bool
  | .saveState _ => false
  | _ => true

/-- The event is not a remote delete call. -/
def evNoDelete : Ev → Bool
  | .deleteRemoteCall _ => false
  | _ => true

/-- The four executor phases of the progress reporter. -/
def execPhases : List String := ["delete_server", "delete_local", "download", "upload"]

/-- A progress event of an executor phase carries the given total. -/
def progTotalOK (T : Nat) : Ev → Bool
  | .progress ph _ t => !(memB ph execPhases) || t == T
  | _ => true

/-- The event is a remote call performed for one work item. -/
def callEvt : Ev → Bool
  | .deleteRemoteCall _ => true
  | .downloadCall _ => true
  | .uploadCall _ => true
  | _ => false

/-- The event is a progress update. -/
def progEvt : Ev → Bool
  | .progress _ _ _ => true
  | _ => false

/-- Scanning check that every per-item call event is immediately preceded by a
progress update; the flag records whether the previous event was a progress
update. -/
def callsOK : Bool → List Ev → Bool
  | _, [] => true
  | prev, e :: rest => (!callEvt e || prev) && callsOK (progEvt e) rest

theorem savedStates_append {a b : List Ev} :
    savedStates (a ++ b) = savedStates a ++ savedStates b := by
  simp [savedStates, List.filterMap_append]

theorem deleteCalls_append {a b : List Ev} :
    deleteCalls (a ++ b) = deleteCalls a ++ deleteCalls b := by
  simp [deleteCalls, List.filterMap_append]

theorem progressEvents_append {a b : List Ev} :
    progressEvents (a ++ b) = progressEvents a ++ progressEvents b := by
  simp [progressEvents, List.filterMap_append]

theorem savedStates_eq_nil {l : List Ev} (h : ∀ e ∈ l, evNoSave e = true) :
    savedStates l = [] := by
  induction l with
  | nil => rfl
  | cons e rest ih =>
    have he := h e (List.mem_cons_self _ _)
    have hr := ih (fun x hx => h x (List.mem_cons_of_mem _ hx))
    cases e
    case saveState s => exact absurd he (by simp [evNoSave])
    all_goals simpa [savedStates, List.filterMap_cons] using hr

theorem deleteCalls_eq_nil {l : List Ev} (h : ∀ e ∈ l, evNoDelete e = true) :
    deleteCalls l = [] := by
  induction l with
  | nil => rfl
  | cons e rest ih =>
    have he := h e (List.mem_cons_self _ _)
    have hr := ih (fun x hx => h x (List.mem_cons_of_mem _ hx))
    cases e
    case deleteRemoteCall p => exact absurd he (by simp [evNoDelete])
    all_goals simpa [deleteCalls, List.filterMap_cons] using hr

theorem callsOK_mono {l : List Ev} {p : Bool} (h : callsOK false l = true) :
    callsOK p l = true := by
  cases l with
  | nil => rfl
  | cons e rest =>
    simp only [callsOK, Bool.and_eq_true, Bool.or_eq_true] at h ⊢
    exact ⟨Or.elim h.1 Or.inl (fun hf => by simp at hf), h.2⟩

theorem callsOK_append {a b : List Ev} {p : Bool} (ha : callsOK p a = true)
    (hb : callsOK false b = true) : callsOK p (a ++ b) = true := by
  induction a generalizing p with
  | nil => exact callsOK_mono hb
  | cons e rest ih =>
    simp only [callsOK, Bool.and_eq_true] at ha ⊢
    exact ⟨ha.1, ih ha.2⟩

/-- Facts about the events appended by one executor phase: no state save, no
remote delete call (unless the phase is the delete-remote phase), every
executor progress update carries the precomputed total, and every per-item
call is immediately preceded by a progress update. -/
def phaseEv (allowDel : Bool) (T : Nat) (ev : List Ev) : Prop :=
  (∀ e ∈ ev, evNoSave e = true) ∧
  (allowDel = false → ∀ e ∈ ev, evNoDelete e = true) ∧
  (∀ e ∈ ev, progTotalOK T e = true) ∧
  callsOK false ev = true

theorem phaseEv_nil {a : Bool} {T : Nat} : phaseEv a T [] := by
  refine ⟨?_, ?_, ?_, rfl⟩ <;> simp

theorem phaseEv_append {a : Bool} {T : Nat} {ev₁ ev₂ : List Ev}
    (h₁ : phaseEv a T ev₁) (h₂ : phaseEv a T ev₂) : phaseEv a T (ev₁ ++ ev₂) := by
  obtain ⟨s₁, d₁, p₁, c₁⟩ := h₁
  obtain ⟨s₂, d₂, p₂, c₂⟩ := h₂
  refine ⟨?_, ?_, ?_, callsOK_append c₁ c₂⟩
  · intro e he
    rcases List.mem_append.mp he with h | h
    · exact s₁ e h
    · exact s₂ e h
  · intro hd e he
    rcases List.mem_append.mp he with h | h
    · exact d₁ hd e h
    · exact d₂ hd e h
  · intro e he
    rcases List.mem_append.mp he with h | h
    · exact p₁ e h
    · exact p₂ e h

theorem phaseEv_mono_allowDel {T : Nat} {ev : List Ev} (h : phaseEv false T ev) :
    phaseEv true T ev :=
  ⟨h.1, fun hd => absurd hd (by simp), h.2.2.1, h.2.2.2⟩

/-! ### Per-phase executor lemmas -/

theorem phaseEv_chunk {a : Bool} {T c : Nat} {name : String} :
    phaseEv a T [Ev.progress name c T] := by
  refine ⟨?_, ?_, ?_, rfl⟩ <;>
    simp [evNoSave, evNoDelete, progTotalOK]

theorem phaseEv_chunk_dr {T c : Nat} {p : String} :
    phaseEv true T [Ev.progress "delete_server" c T, Ev.deleteRemoteCall p] := by
  refine ⟨?_, ?_, ?_, rfl⟩ <;>
    simp [evNoSave, evNoDelete, progTotalOK]

theorem phaseEv_chunk_rm {a : Bool} {T c : Nat} {name p : String} :
    phaseEv a T [Ev.progress name c T, Ev.removeLocalFile p] := by
  refine ⟨?_, ?_, ?_, rfl⟩ <;>
    simp [evNoSave, evNoDelete, progTotalOK]

theorem phaseEv_chunk_dn {T c : Nat} {p : String} :
    phaseEv false T [Ev.progress "download" c T, Ev.downloadCall p] := by
  refine ⟨?_, ?_, ?_, rfl⟩ <;>
    simp [evNoSave, evNoDelete, progTotalOK]

theorem phaseEv_chunk_dnw {T c : Nat} {p : String} {b : Bytes} :
    phaseEv false T [Ev.progress "download" c T, Ev.downloadCall p, Ev.writeLocalFile p b] := by
  refine ⟨?_, ?_, ?_, rfl⟩ <;>
    simp [evNoSave, evNoDelete, progTotalOK]

theorem phaseEv_chunk_dnr {T c : Nat} {p : String} :
    phaseEv false T [Ev.progress "download" c T, Ev.downloadCall p, Ev.removeLocalFile p] := by
  refine ⟨?_, ?_, ?_, rfl⟩ <;>
    simp [evNoSave, evNoDelete, progTotalOK]

theorem phaseEv_chunk_up {T c : Nat} {p : String} :
    phaseEv false T [Ev.progress "upload" c T, Ev.uploadCall p] := by
  refine ⟨?_, ?_, ?_, rfl⟩ <;>
    simp [evNoSave, evNoDelete, progTotalOK]

theorem delRemotePhase_spec (env : SyncEnv) (T : Nat) :
    ∀ (ps : List String) (cx : Cx),
    ∃ ev, (cxOf (delRemotePhase env T ps cx)).trace = cx.trace ++ ev ∧
      phaseEv true T ev ∧
      (∀ cx', delRemotePhase env T ps cx = .ok cx' → deleteCalls ev = ps) ∧
      (∀ q ∈ deleteCalls ev, q ∈ ps) ∧
      (cxOf (delRemotePhase env T ps cx)).fileHashes = cx.fileHashes ∧
      (cxOf (delRemotePhase env T ps cx)).completedDownloads = cx.completedDownloads ∧
      (cxOf (delRemotePhase env T ps cx)).completedUploads = cx.completedUploads := by
  intro ps
  induction ps with
  | nil =>
    intro cx
    exact ⟨[], by simp [delRemotePhase, cxOf], phaseEv_nil,
      fun cx' _ => rfl, fun q hq => by simp [deleteCalls] at hq, rfl, rfl, rfl⟩
  | cons p ps ih =>
    intro cx
    cases hdel : env.deleteR p with
    | error e =>
      refine ⟨[Ev.progress "delete_server" cx.done T, Ev.deleteRemoteCall p],
        ?_, phaseEv_chunk_dr, ?_, ?_, ?_, ?_, ?_⟩ <;>
        simp [delRemotePhase, hdel, cxOf, deleteCalls]
    | ok u =>
      obtain ⟨ev', htr, hph, hok, hsub, hfh, hcd, hcu⟩ :=
        ih { cx with
          trace := cx.trace ++ [Ev.progress "delete_server" cx.done T, Ev.deleteRemoteCall p],
          done := cx.done + 1 }
      refine ⟨[Ev.progress "delete_server" cx.done T, Ev.deleteRemoteCall p] ++ ev',
        ?_, phaseEv_append phaseEv_chunk_dr hph, ?_, ?_, ?_, ?_, ?_⟩
      · simp only [delRemotePhase, hdel]
        rw [htr]
        simp [List.append_assoc]
      · intro cx' h
        simp only [delRemotePhase, hdel] at h
        rw [deleteCalls_append, hok cx' h]
        rfl
      · intro q hq
        rw [deleteCalls_append] at hq
        rcases List.mem_append.mp hq with h | h
        · simp [deleteCalls] at h
          exact h ▸ List.mem_cons_self _ _
        · exact List.mem_cons_of_mem _ (hsub q h)
      · simpa only [delRemotePhase, hdel] using hfh
      · simpa only [delRemotePhase, hdel] using hcd
      · simpa only [delRemotePhase, hdel] using hcu

theorem delLocalPhase_spec (env : SyncEnv) (T : Nat) :
    ∀ (ps : List String) (cx : Cx),
    ∃ ev, (delLocalPhase env T ps cx).trace = cx.trace ++ ev ∧
      phaseEv false T ev ∧
      (delLocalPhase env T ps cx).fileHashes = cx.fileHashes ∧
      (delLocalPhase env T ps cx).completedDownloads = cx.completedDownloads ∧
      (delLocalPhase env T ps cx).completedUploads = cx.completedUploads := by
  intro ps
  induction ps with
  | nil =>
    intro cx
    exact ⟨[], by simp [delLocalPhase], phaseEv_nil, rfl, rfl, rfl⟩
  | cons p ps ih =>
    intro cx
    by_cases hex : fsExists cx.fs p
    · have hstep : delLocalPhase env T (p :: ps) cx =
          delLocalPhase env T ps
            { cx with
              trace := cx.trace ++
                [Ev.progress "delete_local" cx.done T, Ev.removeLocalFile p],
              fs := if env.removeOk p then fsErase cx.fs p else cx.fs,
              done := cx.done + 1 } := by
        simp only [delLocalPhase]
        rw [if_pos hex]
      obtain ⟨ev', htr, hph, hfh, hcd, hcu⟩ :=
        ih { cx with
          trace := cx.trace ++
            [Ev.progress "delete_local" cx.done T, Ev.removeLocalFile p],
          fs := if env.removeOk p then fsErase cx.fs p else cx.fs,
          done := cx.done + 1 }
      refine ⟨[Ev.progress "delete_local" cx.done T, Ev.removeLocalFile p] ++ ev',
        ?_, phaseEv_append phaseEv_chunk_rm hph, ?_, ?_, ?_⟩
      · rw [hstep, htr]
        simp [List.append_assoc]
      · rw [hstep]
        simpa using hfh
      · rw [hstep]
        simpa using hcd
      · rw [hstep]
        simpa using hcu
    · have hstep : delLocalPhase env T (p :: ps) cx =
          delLocalPhase env T ps
            { cx with
              trace := cx.trace ++ [Ev.progress "delete_local" cx.done T],
              done := cx.done + 1 } := by
        simp only [delLocalPhase]
        rw [if_neg hex]
      obtain ⟨ev', htr, hph, hfh, hcd, hcu⟩ :=
        ih { cx with
          trace := cx.trace ++ [Ev.progress "delete_local" cx.done T],
          done := cx.done + 1 }
      refine ⟨[Ev.progress "delete_local" cx.done T] ++ ev',
        ?_, phaseEv_append phaseEv_chunk hph, ?_, ?_, ?_⟩
      · rw [hstep, htr]
        simp [List.append_assoc]
      · rw [hstep]
        simpa using hfh
      · rw [hstep]
        simpa using hcd
      · rw [hstep]
        simpa using hcu

/-- `file_hashes` evolution: the executor only ever inserts a server-listed
hash for the inserted path; other keys are untouched. -/
def fhEvolves (rh : String → Option String) (fh fh' : List (String × String)) : Prop :=
  ∀ q, alGet fh' q = alGet fh q ∨ ∃ h, alGet fh' q = some h ∧ rh q = some h

theorem fhEvolves_refl {rh : String → Option String} {fh : List (String × String)} :
    fhEvolves rh fh fh :=
  fun _ => Or.inl rfl

theorem fhEvolves_trans {rh : String → Option String} {f1 f2 f3 : List (String × String)}
    (e1 : fhEvolves rh f1 f2) (e2 : fhEvolves rh f2 f3) : fhEvolves rh f1 f3 := by
  intro q
  rcases e2 q with h2 | ⟨h, hh, hr⟩
  · rcases e1 q with h1 | ⟨h, hh, hr⟩
    · exact Or.inl (h2.trans h1)
    · exact Or.inr ⟨h, h2.trans hh, hr⟩
  · exact Or.inr ⟨h, hh, hr⟩

theorem fhEvolves_insert {rh : String → Option String} {fh : List (String × String)}
    {p h : String} (hr : rh p = some h) : fhEvolves rh fh (hmInsert fh p h) := by
  intro q
  rw [alGet_hmInsert]
  by_cases hq : p = q
  · exact Or.inr ⟨h, by rw [if_pos hq], hq ▸ hr⟩
  · exact Or.inl (by rw [if_neg hq])

theorem downloadPhase_spec (env : SyncEnv) (T : Nat) (prevD : List String)
    (rh : String → Option String) :
    ∀ (ps : List String) (cx : Cx),
    ∃ ev, (cxOf (downloadPhase env T prevD rh ps cx)).trace = cx.trace ++ ev ∧
      phaseEv false T ev ∧
      fhEvolves rh cx.fileHashes (cxOf (downloadPhase env T prevD rh ps cx)).fileHashes ∧
      (∀ q ∈ (cxOf (downloadPhase env T prevD rh ps cx)).completedDownloads,
        q ∈ cx.completedDownloads ∨ q ∈ ps) ∧
      (cxOf (downloadPhase env T prevD rh ps cx)).completedUploads = cx.completedUploads := by
  intro ps
  induction ps with
  | nil =>
    intro cx
    exact ⟨[], by simp [downloadPhase, cxOf], phaseEv_nil, fhEvolves_refl,
      fun q hq => Or.inl hq, rfl⟩
  | cons p ps ih =>
    intro cx
    by_cases h1 : (memB p prevD && fsExists cx.fs p) = true
    · have hstep : downloadPhase env T prevD rh (p :: ps) cx =
          downloadPhase env T prevD rh ps
            { cx with
              trace := cx.trace ++ [Ev.progress "download" cx.done T],
              done := cx.done + 1 } := by
        simp only [downloadPhase]
        rw [if_pos h1]
      obtain ⟨ev', htr, hph, hfh, hcd, hcu⟩ :=
        ih { cx with
          trace := cx.trace ++ [Ev.progress "download" cx.done T],
          done := cx.done + 1 }
      refine ⟨[Ev.progress "download" cx.done T] ++ ev',
        ?_, phaseEv_append phaseEv_chunk hph, ?_, ?_, ?_⟩
      · rw [hstep, htr]
        simp [List.append_assoc]
      · rw [hstep]
        simpa using hfh
      · rw [hstep]
        intro q hq
        rcases hcd q hq with h | h
        · exact Or.inl h
        · exact Or.inr (List.mem_cons_of_mem _ h)
      · rw [hstep]
        simpa using hcu
    · by_cases h2 : (match rh p with
             | some h => alGet cx.fileHashes p == some h && fsExists cx.fs p
             | none => false) = true
      · have hstep : downloadPhase env T prevD rh (p :: ps) cx =
            downloadPhase env T prevD rh ps
              { cx with
                trace := cx.trace ++ [Ev.progress "download" cx.done T],
                done := cx.done + 1 } := by
          simp only [downloadPhase]
          rw [if_neg h1, if_pos h2]
        obtain ⟨ev', htr, hph, hfh, hcd, hcu⟩ :=
          ih { cx with
            trace := cx.trace ++ [Ev.progress "download" cx.done T],
            done := cx.done + 1 }
        refine ⟨[Ev.progress "download" cx.done T] ++ ev',
          ?_, phaseEv_append phaseEv_chunk hph, ?_, ?_, ?_⟩
        · rw [hstep, htr]
          simp [List.append_assoc]
        · rw [hstep]
          simpa using hfh
        · rw [hstep]
          intro q hq
          rcases hcd q hq with h | h
          · exact Or.inl h
          · exact Or.inr (List.mem_cons_of_mem _ h)
        · rw [hstep]
          simpa using hcu
      · cases hdl : env.downloadR p with
        | ok body =>
          cases hwr : env.writeR p with
          | permDenied =>
            have hstep : downloadPhase env T prevD rh (p :: ps) cx =
                downloadPhase env T prevD rh ps
                  { cx with
                    trace := cx.trace ++
                      [Ev.progress "download" cx.done T, Ev.downloadCall p],
                    bytesDown := cx.bytesDown + body.length,
                    skippedDownloads := addSet cx.skippedDownloads p,
                    done := cx.done + 1 } := by
              simp only [downloadPhase]
              rw [if_neg h1, if_neg h2, hdl, hwr]
            obtain ⟨ev', htr, hph, hfh, hcd, hcu⟩ :=
              ih { cx with
                trace := cx.trace ++
                  [Ev.progress "download" cx.done T, Ev.downloadCall p],
                bytesDown := cx.bytesDown + body.length,
                skippedDownloads := addSet cx.skippedDownloads p,
                done := cx.done + 1 }
            refine ⟨[Ev.progress "download" cx.done T, Ev.downloadCall p] ++ ev',
              ?_, phaseEv_append phaseEv_chunk_dn hph, ?_, ?_, ?_⟩
            · rw [hstep, htr]
              simp [List.append_assoc]
            · rw [hstep]
              simpa using hfh
            · rw [hstep]
              intro q hq
              rcases hcd q hq with h | h
              · exact Or.inl h
              · exact Or.inr (List.mem_cons_of_mem _ h)
            · rw [hstep]
              simpa using hcu
          | fatalErr e =>
            have hstep : downloadPhase env T prevD rh (p :: ps) cx =
                .error ("Download " ++ p ++ ": " ++ e,
                  { cx with
                    trace := cx.trace ++
                      [Ev.progress "download" cx.done T, Ev.downloadCall p],
                    bytesDown := cx.bytesDown + body.length }) := by
              simp only [downloadPhase]
              rw [if_neg h1, if_neg h2, hdl, hwr]
            refine ⟨[Ev.progress "download" cx.done T, Ev.downloadCall p],
              ?_, phaseEv_chunk_dn, ?_, ?_, ?_⟩ <;>
              rw [hstep] <;> simp [cxOf, fhEvolves_refl]
            intro q hq
            exact Or.inl hq
          | okW =>
            have hstep : downloadPhase env T prevD rh (p :: ps) cx =
                downloadPhase env T prevD rh ps
                  { cx with
                    trace := cx.trace ++
                      [Ev.progress "download" cx.done T, Ev.downloadCall p,
                        Ev.writeLocalFile p body],
                    bytesDown := cx.bytesDown + body.length,
                    fs := fsWrite cx.fs p body,
                    completedDownloads := addSet cx.completedDownloads p,
                    fileHashes :=
                      match rh p with
                      | some h => hmInsert cx.fileHashes p h
                      | none => cx.fileHashes,
                    done := cx.done + 1 } := by
              simp only [downloadPhase]
              rw [if_neg h1, if_neg h2, hdl, hwr]
            obtain ⟨ev', htr, hph, hfh, hcd, hcu⟩ :=
              ih { cx with
                trace := cx.trace ++
                  [Ev.progress "download" cx.done T, Ev.downloadCall p,
                    Ev.writeLocalFile p body],
                bytesDown := cx.bytesDown + body.length,
                fs := fsWrite cx.fs p body,
                completedDownloads := addSet cx.completedDownloads p,
                fileHashes :=
                  match rh p with
                  | some h => hmInsert cx.fileHashes p h
                  | none => cx.fileHashes,
                done := cx.done + 1 }
            refine ⟨[Ev.progress "download" cx.done T, Ev.downloadCall p,
                Ev.writeLocalFile p body] ++ ev',
              ?_, phaseEv_append phaseEv_chunk_dnw hph, ?_, ?_, ?_⟩
            · rw [hstep, htr]
              simp [List.append_assoc]
            · rw [hstep]
              refine fhEvolves_trans ?_ (by simpa using hfh)
              cases hrh : rh p with
              | none => simpa [hrh] using fhEvolves_refl
              | some h => simpa [hrh] using fhEvolves_insert hrh
            · rw [hstep]
              intro q hq
              rcases hcd q hq with h | h
              · simp only at h
                rcases mem_addSet.mp h with rfl | h
                · exact Or.inr (List.mem_cons_self _ _)
                · exact Or.inl h
              · exact Or.inr (List.mem_cons_of_mem _ h)
            · rw [hstep]
              simpa using hcu
        | error e =>
          by_cases h404 : strContainsSub e "404" = true
          · by_cases hex : fsExists cx.fs p = true
            · have hstep : downloadPhase env T prevD rh (p :: ps) cx =
                  downloadPhase env T prevD rh ps
                    { cx with
                      trace := cx.trace ++
                        [Ev.progress "download" cx.done T, Ev.downloadCall p,
                          Ev.removeLocalFile p],
                      fs := if env.removeOk p then fsErase cx.fs p else cx.fs,
                      skippedDownloads := addSet cx.skippedDownloads p,
                      done := cx.done + 1 } := by
                simp only [downloadPhase]
                rw [if_neg h1, if_neg h2, hdl]
                simp only [h404, if_true]
                rw [if_pos hex]
              obtain ⟨ev', htr, hph, hfh, hcd, hcu⟩ :=
                ih { cx with
                  trace := cx.trace ++
                    [Ev.progress "download" cx.done T, Ev.downloadCall p,
                      Ev.removeLocalFile p],
                  fs := if env.removeOk p then fsErase cx.fs p else cx.fs,
                  skippedDownloads := addSet cx.skippedDownloads p,
                  done := cx.done + 1 }
              refine ⟨[Ev.progress "download" cx.done T, Ev.downloadCall p,
                  Ev.removeLocalFile p] ++ ev',
                ?_, phaseEv_append phaseEv_chunk_dnr hph, ?_, ?_, ?_⟩
              · rw [hstep, htr]
                simp [List.append_assoc]
              · rw [hstep]
                simpa using hfh
              · rw [hstep]
                intro q hq
                rcases hcd q hq with h | h
                · exact Or.inl h
                · exact Or.inr (List.mem_cons_of_mem _ h)
              · rw [hstep]
                simpa using hcu
            · have hstep : downloadPhase env T prevD rh (p :: ps) cx =
                  downloadPhase env T prevD rh ps
                    { cx with
                      trace := cx.trace ++
                        [Ev.progress "download" cx.done T, Ev.downloadCall p],
                      skippedDownloads := addSet cx.skippedDownloads p,
                      done := cx.done + 1 } := by
                simp only [downloadPhase]
                rw [if_neg h1, if_neg h2, hdl]
                simp only [h404, if_true]
                rw [if_neg hex]
              obtain ⟨ev', htr, hph, hfh, hcd, hcu⟩ :=
                ih { cx with
                  trace := cx.trace ++
                    [Ev.progress "download" cx.done T, Ev.downloadCall p],
                  skippedDownloads := addSet cx.skippedDownloads p,
                  done := cx.done + 1 }
              refine ⟨[Ev.progress "download" cx.done T, Ev.downloadCall p] ++ ev',
                ?_, phaseEv_append phaseEv_chunk_dn hph, ?_, ?_, ?_⟩
              · rw [hstep, htr]
                simp [List.append_assoc]
              · rw [hstep]
                simpa using hfh
              · rw [hstep]
                intro q hq
                rcases hcd q hq with h | h
                · exact Or.inl h
                · exact Or.inr (List.mem_cons_of_mem _ h)
              · rw [hstep]
                simpa using hcu
          · have hstep : downloadPhase env T prevD rh (p :: ps) cx =
                .error ("Download " ++ p ++ ": " ++ e,
                  { cx with
                    trace := cx.trace ++
                      [Ev.progress "download" cx.done T, Ev.downloadCall p] }) := by
              simp only [downloadPhase]
              rw [if_neg h1, if_neg h2, hdl]
              simp only [h404]
              rw [if_neg (by simp [h404])]
            refine ⟨[Ev.progress "download" cx.done T, Ev.downloadCall p],
              ?_, phaseEv_chunk_dn, ?_, ?_, ?_⟩ <;>
              rw [hstep] <;> simp [cxOf, fhEvolves_refl]
            intro q hq
            exact Or.inl hq

theorem uploadPhase_spec (env : SyncEnv) (T : Nat) :
    ∀ (ps : List String) (cx : Cx),
    ∃ ev, (cxOf (uploadPhase env T ps cx)).trace = cx.trace ++ ev ∧
      phaseEv false T ev ∧
      (cxOf (uploadPhase env T ps cx)).fileHashes = cx.fileHashes ∧
      (cxOf (uploadPhase env T ps cx)).completedDownloads = cx.completedDownloads ∧
      (∀ q ∈ (cxOf (uploadPhase env T ps cx)).completedUploads,
        q ∈ cx.completedUploads ∨ q ∈ ps) := by
  intro ps
  induction ps with
  | nil =>
    intro cx
    exact ⟨[], by simp [uploadPhase, cxOf], phaseEv_nil, rfl, rfl,
      fun q hq => Or.inl hq⟩
  | cons p ps ih =>
    intro cx
    by_cases hex : fsExists cx.fs p = true
    · cases hup : env.uploadR p with
      | error e =>
        have hstep : uploadPhase env T (p :: ps) cx =
            .error ("Upload " ++ p ++ ": " ++ e,
              { cx with
                trace := cx.trace ++
                  [Ev.progress "upload" cx.done T, Ev.uploadCall p],
                bytesUp := cx.bytesUp + ((alGet cx.fs p).getD []).length }) := by
          simp only [uploadPhase]
          rw [if_pos hex, hup]
        refine ⟨[Ev.progress "upload" cx.done T, Ev.uploadCall p],
          ?_, phaseEv_chunk_up, ?_, ?_, ?_⟩ <;>
          rw [hstep] <;> simp [cxOf]
        intro q hq
        exact Or.inl hq
      | ok u =>
        have hstep : uploadPhase env T (p :: ps) cx =
            uploadPhase env T ps
              { cx with
                trace := cx.trace ++
                  [Ev.progress "upload" cx.done T, Ev.uploadCall p],
                bytesUp := cx.bytesUp + ((alGet cx.fs p).getD []).length,
                completedUploads := addSet cx.completedUploads p,
                done := cx.done + 1 } := by
          simp only [uploadPhase]
          rw [if_pos hex, hup]
        obtain ⟨ev', htr, hph, hfh, hcd, hcu⟩ :=
          ih { cx with
            trace := cx.trace ++
              [Ev.progress "upload" cx.done T, Ev.uploadCall p],
            bytesUp := cx.bytesUp + ((alGet cx.fs p).getD []).length,
            completedUploads := addSet cx.completedUploads p,
            done := cx.done + 1 }
        refine ⟨[Ev.progress "upload" cx.done T, Ev.uploadCall p] ++ ev',
          ?_, phaseEv_append phaseEv_chunk_up hph, ?_, ?_, ?_⟩
        · rw [hstep, htr]
          simp [List.append_assoc]
        · rw [hstep]
          simpa using hfh
        · rw [hstep]
          simpa using hcd
        · rw [hstep]
          intro q hq
          rcases hcu q hq with h | h
          · simp only at h
            rcases mem_addSet.mp h with rfl | h
            · exact Or.inr (List.mem_cons_self _ _)
            · exact Or.inl h
          · exact Or.inr (List.mem_cons_of_mem _ h)
    · have hstep : uploadPhase env T (p :: ps) cx =
          uploadPhase env T ps
            { cx with
              trace := cx.trace ++ [Ev.progress "upload" cx.done T],
              skippedUploads := addSet cx.skippedUploads p,
              done := cx.done + 1 } := by
        simp only [uploadPhase]
        rw [if_neg hex]
      obtain ⟨ev', htr, hph, hfh, hcd, hcu⟩ :=
        ih { cx with
          trace := cx.trace ++ [Ev.progress "upload" cx.done T],
          skippedUploads := addSet cx.skippedUploads p,
          done := cx.done + 1 }
      refine ⟨[Ev.progress "upload" cx.done T] ++ ev',
        ?_, phaseEv_append phaseEv_chunk hph, ?_, ?_, ?_⟩
      · rw [hstep, htr]
        simp [List.append_assoc]
      · rw [hstep]
        simpa using hfh
      · rw [hstep]
        simpa using hcd
      · rw [hstep]
        intro q hq
        rcases hcu q hq with h | h
        · exact Or.inl h
        · exact Or.inr (List.mem_cons_of_mem _ h)

/-! ### Planner lemmas -/

theorem downloadAdds_fh {hashB : Bytes → String} {fs : LocalFS}
    {rh : String → Option String} {rmt : String → Option Int} {cr : List String} :
    ∀ (ll : List (String × Int)) (fh : List (String × String)),
    fhEvolves rh fh (downloadAdds hashB fs rh rmt cr ll fh).2 := by
  intro ll
  induction ll with
  | nil => exact fun fh => fhEvolves_refl
  | cons pe rest ih =>
    intro fh
    obtain ⟨path, lm⟩ := pe
    by_cases hig : (!is_ignored path && memB path cr) = true
    · by_cases hmt : lm < (rmt path).getD 0
      · cases hrh : rh path with
        | some sh =>
          cases hfs : alGet fs path with
          | some b =>
            by_cases heq : hashB b = sh
            · simp only [downloadAdds, hig, if_true, if_pos hmt, hrh, hfs, if_pos heq]
              exact fhEvolves_trans (fhEvolves_insert hrh) (ih _)
            · simp only [downloadAdds, hig, if_true, if_pos hmt, hrh, hfs, if_neg heq]
              exact ih fh
          | none =>
            simp only [downloadAdds, hig, if_true, if_pos hmt, hrh, hfs]
            exact ih fh
        | none =>
          simp only [downloadAdds, hig, if_true, if_pos hmt, hrh]
          exact ih fh
      · simp only [downloadAdds, hig, if_true, if_neg hmt]
        exact ih fh
    · simp only [downloadAdds, hig, Bool.false_eq_true, if_false]
      exact ih fh

theorem downloadAdds_sub {hashB : Bytes → String} {fs : LocalFS}
    {rh : String → Option String} {rmt : String → Option Int} {cr : List String} :
    ∀ (ll : List (String × Int)) (fh : List (String × String)) (q : String),
    q ∈ (downloadAdds hashB fs rh rmt cr ll fh).1 →
      q ∈ ll.map Prod.fst ∧ is_ignored q = false ∧ q ∈ cr := by
  intro ll
  induction ll with
  | nil => intro fh q hq; simp [downloadAdds] at hq
  | cons pe rest ih =>
    intro fh q hq
    obtain ⟨path, lm⟩ := pe
    have step : ∀ fh', q ∈ (downloadAdds hashB fs rh rmt cr rest fh').1 →
        q ∈ ((path, lm) :: rest).map Prod.fst ∧ is_ignored q = false ∧ q ∈ cr := by
      intro fh' h
      obtain ⟨h1, h2, h3⟩ := ih fh' q h
      exact ⟨List.mem_cons_of_mem _ h1, h2, h3⟩
    have push : q = path → (!is_ignored path && memB path cr) = true →
        q ∈ ((path, lm) :: rest).map Prod.fst ∧ is_ignored q = false ∧ q ∈ cr := by
      rintro rfl hig
      rw [Bool.and_eq_true, Bool.not_eq_true'] at hig
      exact ⟨by simp, hig.1, memB_iff.mp hig.2⟩
    by_cases hig : (!is_ignored path && memB path cr) = true
    · by_cases hmt : lm < (rmt path).getD 0
      · cases hrh : rh path with
        | some sh =>
          cases hfs : alGet fs path with
          | some b =>
            by_cases heq : hashB b = sh
            · simp only [downloadAdds, hig, if_true, if_pos hmt, hrh, hfs, if_pos heq] at hq
              exact step _ hq
            · simp only [downloadAdds, hig, if_true, if_pos hmt, hrh, hfs, if_neg heq,
                List.mem_cons] at hq
              rcases hq with rfl | hq
              · exact push rfl hig
              · exact step _ hq
          | none =>
            simp only [downloadAdds, hig, if_true, if_pos hmt, hrh, hfs, List.mem_cons] at hq
            rcases hq with rfl | hq
            · exact push rfl hig
            · exact step _ hq
        | none =>
          simp only [downloadAdds, hig, if_true, if_pos hmt, hrh, List.mem_cons] at hq
          rcases hq with rfl | hq
          · exact push rfl hig
          · exact step _ hq
      · simp only [downloadAdds, hig, if_true, if_neg hmt] at hq
        exact step _ hq
    · simp only [downloadAdds, hig, Bool.false_eq_true, if_false] at hq
      exact step _ hq

theorem downloadAdds_skip {hashB : Bytes → String} {fs : LocalFS}
    {rh : String → Option String} {rmt : String → Option Int} {cr : List String}
    {p h : String} {b : Bytes} (hr : rh p = some h) (hfs : alGet fs p = some b)
    (hh : hashB b = h) :
    ∀ (ll : List (String × Int)) (fh : List (String × String)),
    p ∉ (downloadAdds hashB fs rh rmt cr ll fh).1 := by
  intro ll
  induction ll with
  | nil => intro fh hq; simp [downloadAdds] at hq
  | cons pe rest ih =>
    intro fh hq
    obtain ⟨path, lm⟩ := pe
    by_cases hig : (!is_ignored path && memB path cr) = true
    · by_cases hmt : lm < (rmt path).getD 0
      · by_cases hp : path = p
        · subst hp
          simp only [downloadAdds, hig, if_true, if_pos hmt, hr, hfs] at hq
          rw [if_pos hh] at hq
          exact ih _ hq
        · cases hrh : rh path with
          | some sh =>
            cases hfsx : alGet fs path with
            | some bx =>
              by_cases heq : hashB bx = sh
              · simp only [downloadAdds, hig, if_true, if_pos hmt, hrh, hfsx,
                  if_pos heq] at hq
                exact ih _ hq
              · simp only [downloadAdds, hig, if_true, if_pos hmt, hrh, hfsx,
                  if_neg heq, List.mem_cons] at hq
                rcases hq with rfl | hq
                · exact hp rfl
                · exact ih _ hq
            | none =>
              simp only [downloadAdds, hig, if_true, if_pos hmt, hrh, hfsx,
                List.mem_cons] at hq
              rcases hq with rfl | hq
              · exact hp rfl
              · exact ih _ hq
          | none =>
            simp only [downloadAdds, hig, if_true, if_pos hmt, hrh, List.mem_cons] at hq
            rcases hq with rfl | hq
            · exact hp rfl
            · exact ih _ hq
      · simp only [downloadAdds, hig, if_true, if_neg hmt] at hq
        exact ih _ hq
    · simp only [downloadAdds, hig, Bool.false_eq_true, if_false] at hq
      exact ih _ hq

theorem mem_toDownloadPlan {hashB : Bytes → String} {fs : LocalFS} {st : SyncStateFile}
    {ll : List (String × Int)} {rl : List FileItem} {fh : List (String × String)}
    {q : String} :
    q ∈ (toDownloadPlan hashB fs st ll rl fh).1 ↔
      (q ∈ currentRemote rl ∧ q ∉ currentLocal ll ∧ is_ignored q = false ∧
        q ∉ toDelRemote st ll) ∨
      q ∈ (downloadAdds hashB fs (remoteHash rl) (remoteMt rl) (currentRemote rl) ll fh).1 := by
  simp only [toDownloadPlan, mem_dedupAdj, mem_sortStr, List.mem_append, List.mem_filter,
    mem_setDiff, Bool.not_eq_true', memB_eq_false]
  constructor
  · rintro (⟨⟨⟨h1, h2⟩, h3⟩, h4⟩ | h)
    · exact Or.inl ⟨h1, h2, h3, h4⟩
    · exact Or.inr h
  · rintro (⟨h1, h2, h3, h4⟩ | h)
    · exact Or.inl ⟨⟨⟨h1, h2⟩, h3⟩, h4⟩
    · exact Or.inr h

theorem mem_toUploadPlan {hashB : Bytes → String} {fs : LocalFS}
    {ll : List (String × Int)} {rl : List FileItem} {q : String} :
    q ∈ toUploadPlan hashB fs ll rl ↔
      ∃ lm, (q, lm) ∈ ll ∧ is_ignored q = false ∧ uploadPred hashB fs rl q lm = true := by
  simp only [toUploadPlan, List.mem_map, List.mem_filter]
  constructor
  · rintro ⟨⟨a, b⟩, ⟨hmem, hpred⟩, rfl⟩
    rw [Bool.and_eq_true, Bool.not_eq_true'] at hpred
    exact ⟨b, hmem, hpred.1, hpred.2⟩
  · rintro ⟨lm, hmem, hig, hpred⟩
    exact ⟨(q, lm), ⟨hmem, by rw [Bool.and_eq_true, Bool.not_eq_true']; exact ⟨hig, hpred⟩⟩, rfl⟩

theorem toDownloadPlan_fh {hashB : Bytes → String} {fs : LocalFS} {st : SyncStateFile}
    {ll : List (String × Int)} {rl : List FileItem} {fh : List (String × String)} :
    fhEvolves (remoteHash rl) fh (toDownloadPlan hashB fs st ll rl fh).2 :=
  downloadAdds_fh ll fh

/-! ### Whole-cycle lemmas -/

theorem runCycle_master (env : SyncEnv) (st0 : SyncStateFile) (ll : List (String × Int))
    (rl : List FileItem) (fs0 : LocalFS) :
    (∀ q ∈ deleteCalls (runCycle env st0 ll rl fs0).trace, q ∈ toDelRemote st0 ll) ∧
    ((runCycle env st0 ll rl fs0).res.isOk = true →
      deleteCalls (runCycle env st0 ll rl fs0).trace = toDelRemote st0 ll) ∧
    (∀ e, (runCycle env st0 ll rl fs0).res = .error e →
      savedStates (runCycle env st0 ll rl fs0).trace = []) ∧
    (∀ s ∈ savedStates (runCycle env st0 ll rl fs0).trace,
      fhEvolves (remoteHash rl) st0.file_hashes s.file_hashes ∧
      s.downloaded_paths = [] ∧
      (∀ q ∈ s.paths, q ∈ baseSynced st0 ll rl ∨
        (∃ fsd fhd, q ∈ (toDownloadPlan env.hashB fsd st0 ll rl fhd).1) ∨
        (∃ fsu, q ∈ toUploadPlan env.hashB fsu ll rl))) ∧
    (∀ e ∈ (runCycle env st0 ll rl fs0).trace, progTotalOK (totalWork st0 ll rl) e = true) ∧
    callsOK false (runCycle env st0 ll rl fs0).trace = true := by
  obtain ⟨ev1, htr1, hph1, hok1, hsub1, hfh1, hcd1, hcu1⟩ :=
    delRemotePhase_spec env (totalWork st0 ll rl) (toDelRemote st0 ll) (initCx st0 fs0)
  cases hdr : delRemotePhase env (totalWork st0 ll rl) (toDelRemote st0 ll) (initCx st0 fs0) with
  | error ecx =>
    obtain ⟨e0, cxE⟩ := ecx
    rw [hdr] at htr1
    simp only [cxOf] at htr1
    have hrun : runCycle env st0 ll rl fs0 =
        { res := .error e0, trace := cxE.trace, fs := cxE.fs } := by
      simp only [runCycle, hdr]
    rw [hrun]
    have htr : cxE.trace = [Ev.progress "listing" 0 0] ++ ev1 := htr1
    refine ⟨?_, ?_, ?_, ?_, ?_, ?_⟩
    · intro q hq
      rw [htr, deleteCalls_append] at hq
      rcases List.mem_append.mp hq with h | h
      · simp [deleteCalls] at h
      · exact hsub1 q h
    · intro h
      simp [Except.isOk, Except.toBool] at h
    · intro e he
      rw [htr, savedStates_append, savedStates_eq_nil hph1.1]
      rfl
    · intro s hs
      rw [htr, savedStates_append, savedStates_eq_nil hph1.1] at hs
      simp [savedStates] at hs
    · intro e he
      rw [htr] at he
      rcases List.mem_append.mp he with h | h
      · simp only [List.mem_singleton] at h
        subst h
        rfl
      · exact hph1.2.2.1 e h
    · rw [htr]
      exact callsOK_append rfl hph1.2.2.2
  | ok cx1 =>
    rw [hdr] at htr1 hfh1 hcd1 hcu1
    simp only [cxOf] at htr1 hfh1 hcd1 hcu1
    have hdc1 : deleteCalls ev1 = toDelRemote st0 ll := hok1 cx1 hdr
    obtain ⟨ev2, htr2, hph2, hfh2, hcd2, hcu2⟩ :=
      delLocalPhase_spec env (totalWork st0 ll rl) (toDelLocal st0 rl) cx1
    set cx2 := delLocalPhase env (totalWork st0 ll rl) (toDelLocal st0 rl) cx1 with hcx2
    obtain ⟨ev3, htr3, hph3, hfh3, hcd3, hcu3⟩ :=
      downloadPhase_spec env (totalWork st0 ll rl) st0.downloaded_paths.dedup (remoteHash rl)
        (toDownloadPlan env.hashB cx2.fs st0 ll rl cx2.fileHashes).1
        { cx2 with fileHashes := (toDownloadPlan env.hashB cx2.fs st0 ll rl cx2.fileHashes).2 }
    have hfh12 : cx2.fileHashes = st0.file_hashes := by
      rw [hfh2, hfh1]
      rfl
    have hcd12 : cx2.completedDownloads = [] := by
      rw [hcd2, hcd1]
      rfl
    have hcu12 : cx2.completedUploads = [] := by
      rw [hcu2, hcu1]
      rfl
    have htr12 : cx2.trace = ([Ev.progress "listing" 0 0] ++ ev1) ++ ev2 := by
      rw [htr2, htr1]
      rfl
    have hdc1' : deleteCalls (([Ev.progress "listing" 0 0] ++ ev1) ++ ev2) =
        toDelRemote st0 ll := by
      rw [deleteCalls_append, deleteCalls_append, hdc1,
        deleteCalls_eq_nil (hph2.2.1 rfl), List.append_nil]
      rfl
    have hsub1' : ∀ q ∈ deleteCalls (([Ev.progress "listing" 0 0] ++ ev1) ++ ev2),
        q ∈ toDelRemote st0 ll := by
      rw [hdc1']
      exact fun q hq => hq
    have hsv12 : savedStates (([Ev.progress "listing" 0 0] ++ ev1) ++ ev2) = [] := by
      rw [savedStates_append, savedStates_append, savedStates_eq_nil hph1.1,
        savedStates_eq_nil hph2.1]
      rfl
    have hpr12 : ∀ e ∈ ([Ev.progress "listing" 0 0] ++ ev1) ++ ev2,
        progTotalOK (totalWork st0 ll rl) e = true := by
      intro e he
      rcases List.mem_append.mp he with h | h
      · rcases List.mem_append.mp h with h' | h'
        · simp only [List.mem_singleton] at h'
          subst h'
          rfl
        · exact hph1.2.2.1 e h'
      · exact hph2.2.2.1 e h
    have hco12 : callsOK false (([Ev.progress "listing" 0 0] ++ ev1) ++ ev2) = true :=
      callsOK_append (callsOK_append rfl hph1.2.2.2) hph2.2.2.2
    cases hdn : downloadPhase env (totalWork st0 ll rl) st0.downloaded_paths.dedup (remoteHash rl)
        (toDownloadPlan env.hashB cx2.fs st0 ll rl cx2.fileHashes).1
        { cx2 with fileHashes := (toDownloadPlan env.hashB cx2.fs st0 ll rl cx2.fileHashes).2 } with
    | error ecx =>
      obtain ⟨e0, cxE⟩ := ecx
      rw [hdn] at htr3
      simp only [cxOf] at htr3
      have hrun : runCycle env st0 ll rl fs0 =
          { res := .error e0, trace := cxE.trace, fs := cxE.fs } := by
        simp only [runCycle, hdr]
        rw [← hcx2, hdn]
      rw [hrun]
      have htr : cxE.trace = (([Ev.progress "listing" 0 0] ++ ev1) ++ ev2) ++ ev3 := by
        rw [htr3]
        rw [show ({ cx2 with fileHashes :=
          (toDownloadPlan env.hashB cx2.fs st0 ll rl cx2.fileHashes).2 } : Cx).trace =
          cx2.trace from rfl, htr12]
      refine ⟨?_, ?_, ?_, ?_, ?_, ?_⟩
      · intro q hq
        rw [htr, deleteCalls_append] at hq
        rcases List.mem_append.mp hq with h | h
        · exact hsub1' q h
        · rw [deleteCalls_eq_nil (hph3.2.1 rfl)] at h
          simp at h
      · intro h
        simp [Except.isOk, Except.toBool] at h
      · intro e he
        rw [htr, savedStates_append, hsv12, savedStates_eq_nil hph3.1]
        rfl
      · intro s hs
        rw [htr, savedStates_append, hsv12, savedStates_eq_nil hph3.1] at hs
        simp at hs
      · intro e he
        rw [htr] at he
        rcases List.mem_append.mp he with h | h
        · exact hpr12 e h
        · exact hph3.2.2.1 e h
      · rw [htr]
        exact callsOK_append hco12 hph3.2.2.2
    | ok cx4 =>
      rw [hdn] at htr3 hfh3 hcd3 hcu3
      simp only [cxOf] at htr3 hfh3 hcd3 hcu3
      have htr34 : cx4.trace = ((([Ev.progress "listing" 0 0] ++ ev1) ++ ev2) ++ ev3) := by
        rw [htr3]
        rw [show ({ cx2 with fileHashes :=
          (toDownloadPlan env.hashB cx2.fs st0 ll rl cx2.fileHashes).2 } : Cx).trace =
          cx2.trace from rfl, htr12]
      obtain ⟨ev4, htr4, hph4, hfh4, hcd4, hcu4⟩ :=
        uploadPhase_spec env (totalWork st0 ll rl) (toUploadPlan env.hashB cx2.fs ll rl) cx4
      cases hup : uploadPhase env (totalWork st0 ll rl) (toUploadPlan env.hashB cx2.fs ll rl) cx4 with
      | error ecx =>
        obtain ⟨e0, cxE⟩ := ecx
        rw [hup] at htr4
        simp only [cxOf] at htr4
        have hrun : runCycle env st0 ll rl fs0 =
            { res := .error e0, trace := cxE.trace, fs := cxE.fs } := by
          simp only [runCycle, hdr]
          rw [← hcx2]
          simp only [hdn, hup]
        rw [hrun]
        have htr : cxE.trace =
            (((([Ev.progress "listing" 0 0] ++ ev1) ++ ev2) ++ ev3) ++ ev4) := by
          rw [htr4, htr34]
        refine ⟨?_, ?_, ?_, ?_, ?_, ?_⟩
        · intro q hq
          rw [htr, deleteCalls_append, deleteCalls_append] at hq
          rcases List.mem_append.mp hq with h | h
          · rcases List.mem_append.mp h with h' | h'
            · exact hsub1' q h'
            · rw [deleteCalls_eq_nil (hph3.2.1 rfl)] at h'
              simp at h'
          · rw [deleteCalls_eq_nil (hph4.2.1 rfl)] at h
            simp at h
        · intro h
          simp [Except.isOk, Except.toBool] at h
        · intro e he
          rw [htr, savedStates_append, savedStates_append, hsv12,
            savedStates_eq_nil hph3.1, savedStates_eq_nil hph4.1]
          rfl
        · intro s hs
          rw [htr, savedStates_append, savedStates_append, hsv12,
            savedStates_eq_nil hph3.1, savedStates_eq_nil hph4.1] at hs
          simp at hs
        · intro e he
          rw [htr] at he
          rcases List.mem_append.mp he with h | h
          · rcases List.mem_append.mp h with h' | h'
            · exact hpr12 e h'
            · exact hph3.2.2.1 e h'
          · exact hph4.2.2.1 e h
        · rw [htr]
          exact callsOK_append (callsOK_append hco12 hph3.2.2.2) hph4.2.2.2
      | ok cx5 =>
        rw [hup] at htr4 hfh4 hcd4 hcu4
        simp only [cxOf] at htr4 hfh4 hcd4 hcu4
        have hrun : runCycle env st0 ll rl fs0 = commitResult st0 ll rl cx5 := by
          simp only [runCycle, hdr]
          rw [← hcx2]
          simp only [hdn, hup]
        rw [hrun]
        have htrC : (commitResult st0 ll rl cx5).trace = cx5.trace ++
            [Ev.saveState (commitState st0 ll rl cx5), Ev.progress "idle" 0 0] := rfl
        have htr5 : cx5.trace =
            (((([Ev.progress "listing" 0 0] ++ ev1) ++ ev2) ++ ev3) ++ ev4) := by
          rw [htr4, htr34]
        have hsv5 : savedStates cx5.trace = [] := by
          rw [htr5, savedStates_append, savedStates_append, hsv12,
            savedStates_eq_nil hph3.1, savedStates_eq_nil hph4.1]
          rfl
        have hdcC : deleteCalls (commitResult st0 ll rl cx5).trace = toDelRemote st0 ll := by
          rw [htrC, deleteCalls_append, htr5, deleteCalls_append, deleteCalls_append,
            hdc1', deleteCalls_eq_nil (hph3.2.1 rfl), deleteCalls_eq_nil (hph4.2.1 rfl)]
          simp [deleteCalls]
        refine ⟨?_, ?_, ?_, ?_, ?_, ?_⟩
        · intro q hq
          rw [hdcC] at hq
          exact hq
        · intro h
          exact hdcC
        · intro e he
          exact absurd he (by simp [commitResult])
        · intro s hs
          rw [htrC, savedStates_append, hsv5] at hs
          have hs' : s = commitState st0 ll rl cx5 := by
            simpa [savedStates] using hs
          subst hs'
          refine ⟨?_, rfl, ?_⟩
          · show fhEvolves (remoteHash rl) st0.file_hashes cx5.fileHashes
            rw [hfh4]
            refine fhEvolves_trans ?_ hfh3
            rw [← hfh12]
            exact toDownloadPlan_fh
          · intro q hq
            have hq' : q ∈ baseSynced st0 ll rl ∨ q ∈ cx5.completedDownloads ∨
                q ∈ cx5.completedUploads := by
              have := mem_sortStr.mp hq
              rw [List.mem_dedup] at this
              rcases List.mem_append.mp this with h | h
              · rcases List.mem_append.mp h with h' | h'
                · exact Or.inl h'
                · exact Or.inr (Or.inl h')
              · exact Or.inr (Or.inr h)
            rcases hq' with h | h | h
            · exact Or.inl h
            · rw [hcd4] at h
              rcases hcd3 q h with h' | h'
              · rw [hcd12] at h'
                simp at h'
              · exact Or.inr (Or.inl ⟨cx2.fs, cx2.fileHashes, h'⟩)
            · rcases hcu4 q h with h' | h'
              · rw [hcu3] at h'
                rw [show ({ cx2 with fileHashes :=
                  (toDownloadPlan env.hashB cx2.fs st0 ll rl cx2.fileHashes).2 } : Cx).completedUploads =
                  cx2.completedUploads from rfl, hcu12] at h'
                simp at h'
              · exact Or.inr (Or.inr ⟨cx2.fs, h'⟩)
        · intro e he
          rw [htrC] at he
          rcases List.mem_append.mp he with h | h
          · rw [htr5] at h
            rcases List.mem_append.mp h with h' | h'
            · rcases List.mem_append.mp h' with h'' | h'' 
              · exact hpr12 e h''
              · exact hph3.2.2.1 e h''
            · exact hph4.2.2.1 e h'
          · rcases List.mem_cons.mp h with rfl | h'
            · rfl
            · rcases List.mem_singleton.mp h' with rfl
              rfl
        · rw [htrC, htr5]
          exact callsOK_append
            (callsOK_append (callsOK_append hco12 hph3.2.2.2) hph4.2.2.2) rfl

theorem run_sync_ok_listing {env : SyncEnv} {inp : SyncInput} {rl : List FileItem}
    (hl : inp.listingRes = .ok rl) :
    run_sync env inp = runCycle env inp.state0 inp.localList rl inp.fs0 := by
  simp [run_sync, hl]

theorem run_sync_err_listing {env : SyncEnv} {inp : SyncInput} {e : String}
    (hl : inp.listingRes = .error e) :
    run_sync env inp =
      { res := .error e, trace := [Ev.progress "listing" 0 0], fs := inp.fs0 } := by
  simp [run_sync, hl]

theorem mem_toDelRemote {st : SyncStateFile} {ll : List (String × Int)} {p : String} :
    p ∈ toDelRemote st ll ↔ guardTriggered st ll = false ∧ p ∈ lastSynced st ∧
      p ∉ currentLocal ll ∧ is_ignored p = false := by
  rw [toDelRemote, mem_sortByDepthDesc, toDeleteRemote]
  by_cases hg : guardTriggered st ll
  · simp [hg]
  · rw [Bool.not_eq_true] at hg
    simp only [hg, Bool.false_eq_true, if_false, toDeleteRemoteRaw, List.mem_filter,
      mem_setDiff, Bool.not_eq_true', true_and]
    tauto

theorem mem_baseSynced {st : SyncStateFile} {ll : List (String × Int)} {rl : List FileItem}
    {p : String} (hp : p ∈ baseSynced st ll rl) :
    p ∈ currentLocal ll ∧ p ∈ currentRemote rl ∧ is_ignored p = false := by
  rw [baseSynced, List.mem_filter, Bool.not_eq_true'] at hp
  obtain ⟨hmem, hig⟩ := hp
  rw [mem_setInter, mem_setDiff, mem_setDiff] at hmem
  exact ⟨hmem.1.1, hmem.2.1, hig⟩

theorem currentLocal_of_mem {ll : List (String × Int)} {p : String} {lm : Int}
    (h : (p, lm) ∈ ll) : p ∈ currentLocal ll := by
  rw [currentLocal, List.mem_dedup]
  exact List.mem_map.mpr ⟨(p, lm), h, rfl⟩

/-! ### Concrete cycle inputs used to settle individual claims -/

/-- An environment in which every effect succeeds. -/
def okEnv : SyncEnv where
  hashB := fun _ => "x"
  deleteR := fun _ => .ok ()
  downloadR := fun _ => .ok [1]
  writeR := fun _ => .okW
  removeOk := fun _ => true
  uploadR := fun _ => .ok ()

/-- Environment for the C1 failing input: the local copy of `a` hashes to
`"g"` (≠ the server hash `"h"`), and the download of `a` fails with a 404. -/
def envC1 : SyncEnv :=
  { okEnv with hashB := fun _ => "g", downloadR := fun _ => .error "HTTP 404 Not Found" }

/-- C1 failing input: `a` was synced, is present on both sides, the remote
copy is newer with hash `"h"`, and the server 404s the download. -/
def inpC1 : SyncInput where
  state0 := { paths := ["a"], downloaded_paths := [], file_hashes := [] }
  localList := [("a", 0)]
  listingRes := .ok [{ path := "a", mtime := 5, hash := some "h" }]
  fs0 := [("a", [1])]

/-- C1: the claim says the committed `paths` is a subset of both the final
local and final remote file sets, including after 404-triggered local
deletions.  Evaluating `run_sync` at the failing input: the cycle succeeds
(with a warning), commits `paths = ["a"]`, yet the 404 branch has deleted
the local copy of `a` — `a` is on neither side (the server reported it gone),
contradicting the claim and the module's own documentation that skipped
downloads are excluded from the persisted state. -/
theorem C1_committed_path_on_neither_side :
    savedStates (run_sync envC1 inpC1).trace =
      [{ paths := ["a"], downloaded_paths := [], file_hashes := [] }] ∧
    fsExists (run_sync envC1 inpC1).fs "a" = false ∧
    (run_sync envC1 inpC1).res =
      .ok (0, 0, some "1 download(s) skipped (permission denied or file gone on server)") := by
  decide

/-- C2 counterexample: with prior state `paths = ["a"]`, `a` still present
locally and gone from the remote, the plan puts `a` in `to_delete_local`
*and* in `to_upload` in the same cycle, refuting the second half of the
claim. -/
theorem C2_counterexample :
    "a" ∈ toDeleteLocal { paths := ["a"], downloaded_paths := [], file_hashes := [] } [] ∧
    "a" ∈ toUploadPlan (fun _ => "x") [] [("a", 0)] [] := by
  decide

/-- C2 (amended): no path in `to_delete_remote` is ever also in
`to_download` in the same cycle; the delete-local/upload half of the claim
is false (see the counterexample). -/
theorem C2_delete_remote_download_disjoint (hashB : Bytes → String) (fs : LocalFS)
    (st : SyncStateFile) (ll : List (String × Int)) (rl : List FileItem)
    (fh : List (String × String)) (p : String)
    (hp : p ∈ toDelRemote st ll) :
    p ∉ (toDownloadPlan hashB fs st ll rl fh).1 := by
  intro hq
  obtain ⟨-, -, hnl, -⟩ := mem_toDelRemote.mp hp
  rcases mem_toDownloadPlan.mp hq with ⟨-, -, -, h4⟩ | hadds
  · exact h4 hp
  · obtain ⟨h1, -, -⟩ := downloadAdds_sub ll fh p hadds
    rw [currentLocal, List.mem_dedup] at hnl
    exact hnl h1

/-- C2 witness: a concrete cycle where `x` is planned for remote deletion and
is indeed not in the download plan. -/
theorem C2_witness :
    "x" ∉ (toDownloadPlan (fun _ => "x") []
      { paths := ["x"], downloaded_paths := [], file_hashes := [] } []
      [{ path := "x", mtime := 0, hash := none }] []).1 :=
  C2_delete_remote_download_disjoint (fun _ => "x") []
    { paths := ["x"], downloaded_paths := [], file_hashes := [] } []
    [{ path := "x", mtime := 0, hash := none }] [] "x" (by decide)

/-- Environment for the C5 counterexample: the downloaded body `[7]` hashes
to `"h2"` while the server claims `"h1"`. -/
def envC5 : SyncEnv :=
  { okEnv with hashB := fun _ => "h2", downloadR := fun _ => .ok [7] }

/-- C5 counterexample input: one remote-only file with a server hash. -/
def inpC5 : SyncInput where
  state0 := { paths := [], downloaded_paths := [], file_hashes := [] }
  localList := []
  listingRes := .ok [{ path := "a", mtime := 5, hash := some "h1" }]
  fs0 := []

/-- C5 counterexample: after a successful download of `a` whose written bytes
`[7]` hash to `"h2"`, the persisted `file_hashes` stores the *server's*
claimed hash `"h1"` — not the hash of the bytes actually written (the source
computes the content hash and discards it), refuting the claim. -/
theorem C5_counterexample :
    savedStates (run_sync envC5 inpC5).trace =
      [{ paths := ["a"], downloaded_paths := [], file_hashes := [("a", "h1")] }] ∧
    Ev.writeLocalFile "a" [7] ∈ (run_sync envC5 inpC5).trace ∧
    envC5.hashB [7] = "h2" ∧ ("h1" : String) ≠ "h2" := by
  decide

/-- C5 (amended): every entry of the committed `file_hashes` is either
carried over from the loaded prior state or is the hash the server listed
for that path this cycle (stored unverified on download, or stored after an
observed local match in the planner); the stored value is never recomputed
from the written bytes. -/
theorem C5_hashes_from_server_or_prior (env : SyncEnv) (inp : SyncInput)
    (s : SyncStateFile) (p h : String)
    (hs : s ∈ savedStates (run_sync env inp).trace)
    (hget : alGet s.file_hashes p = some h) :
    alGet inp.state0.file_hashes p = some h ∨
      ∃ rl, inp.listingRes = .ok rl ∧ remoteHash rl p = some h := by
  cases hl : inp.listingRes with
  | error e =>
    rw [run_sync_err_listing hl] at hs
    simp [savedStates] at hs
  | ok rl =>
    rw [run_sync_ok_listing hl] at hs
    obtain ⟨-, -, -, hsaved, -, -⟩ :=
      runCycle_master env inp.state0 inp.localList rl inp.fs0
    obtain ⟨hfh, -, -⟩ := hsaved s hs
    rcases hfh p with heq | ⟨h', hh', hr'⟩
    · exact Or.inl (heq ▸ hget)
    · rw [hget] at hh'
      cases hh'
      exact Or.inr ⟨rl, rfl, hr'⟩

/-- C5 witness: the amended theorem applied at the C5 counterexample input. -/
theorem C5_witness :
    alGet inpC5.state0.file_hashes "a" = some "h1" ∨
      ∃ rl, inpC5.listingRes = .ok rl ∧ remoteHash rl "a" = some "h1" :=
  C5_hashes_from_server_or_prior envC5 inpC5
    { paths := ["a"], downloaded_paths := [], file_hashes := [("a", "h1")] }
    "a" "h1" (by decide) (by decide)

/-- C6 counterexample: an ignored name in the prior persisted `paths` that is
absent from the remote listing lands in `to_delete_local`, because line 172
of sync.rs applies no `is_ignored` filter there — refuting the claim for
`to_delete_local`. -/
theorem C6_counterexample :
    is_ignored "Thumbs.db" = true ∧
    "Thumbs.db" ∈ toDeleteLocal
      { paths := ["Thumbs.db"], downloaded_paths := [], file_hashes := [] } [] := by
  decide

/-- C6 (amended): ignored names never appear in `to_delete_remote`,
`to_download`, `to_upload`, or the committed `paths`; they *can* appear in
`to_delete_local` when present in an arbitrary prior persisted state (see
the counterexample). -/
theorem C6_ignored_filtered (env : SyncEnv) (inp : SyncInput)
    (hashB : Bytes → String) (fs : LocalFS) (st : SyncStateFile)
    (ll : List (String × Int)) (rl : List FileItem) (fh : List (String × String))
    (p : String) (hig : is_ignored p = true) :
    p ∉ toDelRemote st ll ∧
    p ∉ (toDownloadPlan hashB fs st ll rl fh).1 ∧
    p ∉ toUploadPlan hashB fs ll rl ∧
    (∀ s ∈ savedStates (run_sync env inp).trace, p ∉ s.paths) := by
  refine ⟨?_, ?_, ?_, ?_⟩
  · intro hp
    obtain ⟨-, -, -, hfalse⟩ := mem_toDelRemote.mp hp
    rw [hig] at hfalse
    cases hfalse
  · intro hq
    rcases mem_toDownloadPlan.mp hq with ⟨-, -, hfalse, -⟩ | hadds
    · rw [hig] at hfalse
      cases hfalse
    · obtain ⟨-, hfalse, -⟩ := downloadAdds_sub ll fh p hadds
      rw [hig] at hfalse
      cases hfalse
  · intro hq
    obtain ⟨-, -, hfalse, -⟩ := mem_toUploadPlan.mp hq
    rw [hig] at hfalse
    cases hfalse
  · intro s hs hq
    cases hl : inp.listingRes with
    | error e =>
      rw [run_sync_err_listing hl] at hs
      simp [savedStates] at hs
    | ok rl' =>
      rw [run_sync_ok_listing hl] at hs
      obtain ⟨-, -, -, hsaved, -, -⟩ :=
        runCycle_master env inp.state0 inp.localList rl' inp.fs0
      obtain ⟨-, -, hpaths⟩ := hsaved s hs
      rcases hpaths p hq with h | ⟨fsd, fhd, h⟩ | ⟨fsu, h⟩
      · obtain ⟨-, -, hfalse⟩ := mem_baseSynced h
        rw [hig] at hfalse
        cases hfalse
      · rcases mem_toDownloadPlan.mp h with ⟨-, -, hfalse, -⟩ | hadds
        · rw [hig] at hfalse
          cases hfalse
        · obtain ⟨-, hfalse, -⟩ := downloadAdds_sub _ fhd p hadds
          rw [hig] at hfalse
          cases hfalse
      · obtain ⟨-, -, hfalse, -⟩ := mem_toUploadPlan.mp h
        rw [hig] at hfalse
        cases hfalse

/-- C6 witness: the amended theorem at a concrete ignored name and concrete
cycle inputs. -/
theorem C6_witness :
    "Thumbs.db" ∉ toDelRemote
        { paths := ["Thumbs.db"], downloaded_paths := [], file_hashes := [] } [] ∧
    "Thumbs.db" ∉ (toDownloadPlan (fun _ => "x") []
        { paths := ["Thumbs.db"], downloaded_paths := [], file_hashes := [] } []
        [{ path := "Thumbs.db", mtime := 5, hash := none }] []).1 ∧
    "Thumbs.db" ∉ toUploadPlan (fun _ => "x") [] []
        [{ path := "Thumbs.db", mtime := 5, hash := none }] ∧
    (∀ s ∈ savedStates (run_sync okEnv
        { state0 := { paths := ["Thumbs.db"], downloaded_paths := [], file_hashes := [] },
          localList := [],
          listingRes := .ok [{ path := "Thumbs.db", mtime := 5, hash := none }],
          fs0 := [] }).trace, "Thumbs.db" ∉ s.paths) :=
  C6_ignored_filtered okEnv
    { state0 := { paths := ["Thumbs.db"], downloaded_paths := [], file_hashes := [] },
      localList := [],
      listingRes := .ok [{ path := "Thumbs.db", mtime := 5, hash := none }],
      fs0 := [] }
    (fun _ => "x") []
    { paths := ["Thumbs.db"], downloaded_paths := [], file_hashes := [] } []
    [{ path := "Thumbs.db", mtime := 5, hash := none }] []
    "Thumbs.db" (by decide)

/-- C3: if the planned remote-delete set (after the ignore filter) has more
than 50 elements and is larger than the current local file set, `run_sync`
performs zero remote delete calls that cycle — whether or not the cycle later
aborts; otherwise, in a cycle that completes successfully, the delete calls
performed are exactly the planned (depth-sorted) remote-delete list. -/
theorem C3_guardrail (env : SyncEnv) (inp : SyncInput) (rl : List FileItem)
    (hl : inp.listingRes = .ok rl) :
    ((50 < (toDeleteRemoteRaw inp.state0 inp.localList).length ∧
        (currentLocal inp.localList).length <
          (toDeleteRemoteRaw inp.state0 inp.localList).length) →
      deleteCalls (run_sync env inp).trace = []) ∧
    ((run_sync env inp).res.isOk = true →
      deleteCalls (run_sync env inp).trace = toDelRemote inp.state0 inp.localList) := by
  rw [run_sync_ok_listing hl]
  obtain ⟨hsub, hok, -, -, -, -⟩ :=
    runCycle_master env inp.state0 inp.localList rl inp.fs0
  constructor
  · intro hg
    have hgt : guardTriggered inp.state0 inp.localList = true := by
      rw [guardTriggered, Bool.and_eq_true, decide_eq_true_iff, decide_eq_true_iff]
      exact hg
    have hempty : toDelRemote inp.state0 inp.localList = [] := by
      rw [toDelRemote, toDeleteRemote, hgt]
      rfl
    rw [List.eq_nil_iff_forall_not_mem]
    intro q hq
    have := hsub q hq
    rw [hempty] at this
    cases this
  · exact hok

/-- C3 witness: a state with 51 previously synced paths and no local files
triggers the guardrail; the cycle performs zero remote delete calls. -/
theorem C3_witness :
    deleteCalls (run_sync okEnv
      { state0 :=
          { paths := (List.range 51).map (fun i => toString i),
            downloaded_paths := [], file_hashes := [] },
        localList := [], listingRes := .ok [], fs0 := [] }).trace = [] :=
  (C3_guardrail okEnv
    { state0 :=
        { paths := (List.range 51).map (fun i => toString i),
          downloaded_paths := [], file_hashes := [] },
      localList := [], listingRes := .ok [], fs0 := [] }
    [] rfl).1 (by decide)

/-- C7: whenever `run_sync` aborts with a fatal error — a failed listing, a
failed remote delete, a non-404 download error, a non-permission-denied
write error, or a failed upload — it returns the error without ever saving
the sync-state file, so the persisted state is exactly the one loaded at
cycle start. -/
theorem C7_fatal_error_no_save (env : SyncEnv) (inp : SyncInput) (e : String)
    (he : (run_sync env inp).res = .error e) :
    savedStates (run_sync env inp).trace = [] := by
  cases hl : inp.listingRes with
  | error e' =>
    rw [run_sync_err_listing hl]
    rfl
  | ok rl =>
    rw [run_sync_ok_listing hl] at he ⊢
    obtain ⟨-, -, hnosave, -, -, -⟩ :=
      runCycle_master env inp.state0 inp.localList rl inp.fs0
    exact hnosave e he

/-- C7 witness: a cycle whose listing fails saves nothing. -/
theorem C7_witness :
    savedStates (run_sync okEnv
      { state0 := { paths := [], downloaded_paths := [], file_hashes := [] },
        localList := [], listingRes := .error "connection refused", fs0 := [] }).trace = [] :=
  C7_fatal_error_no_save okEnv
    { state0 := { paths := [], downloaded_paths := [], file_hashes := [] },
      localList := [], listingRes := .error "connection refused", fs0 := [] }
    "connection refused" (by decide)

/-- Remote listing for the C8 counterexample. -/
def rlC8 : List FileItem := [{ path := "a", mtime := 5, hash := none }]

/-- C8 counterexample input: `a` exists on both sides, the remote copy is
newer and has no server hash, so `a` is in `to_download` but contributes
nothing to `total_work` (it is in neither set difference). -/
def inpC8 : SyncInput where
  state0 := { paths := [], downloaded_paths := [], file_hashes := [] }
  localList := [("a", 0)]
  listingRes := .ok rlC8
  fs0 := [("a", [3])]

/-- C8 counterexample: the download phase publishes `(current, total) =
(0, 0)` — every published total is 0 — while the four phase lists have
1 item in total, refuting the claim that the published total equals
`|to_delete_remote| + |to_delete_local| + |to_download| + |to_upload|`. -/
theorem C8_counterexample :
    Ev.progress "download" 0 0 ∈ (run_sync okEnv inpC8).trace ∧
    (∀ x ∈ progressEvents (run_sync okEnv inpC8).trace, x.2.2 = 0) ∧
    (toDelRemote inpC8.state0 inpC8.localList).length
      + (toDelLocal inpC8.state0 rlC8).length
      + (toDownloadPlan okEnv.hashB inpC8.fs0 inpC8.state0 inpC8.localList rlC8 []).1.length
      + (toUploadPlan okEnv.hashB inpC8.fs0 inpC8.localList rlC8).length = 1 := by
  decide

/-- C8 (amended): the total published before each item of the four executor
phases is `total_work` — planned delete counts plus the *listing set
differences* (remote-only and local-only non-ignored paths), which can
differ from `|to_download| + |to_upload|` (see the counterexample) — and
every per-item remote call is immediately preceded by a progress update. -/
theorem C8_progress_totals (env : SyncEnv) (inp : SyncInput) (rl : List FileItem)
    (hl : inp.listingRes = .ok rl) :
    (∀ ph c t, Ev.progress ph c t ∈ (run_sync env inp).trace → ph ∈ execPhases →
      t = totalWork inp.state0 inp.localList rl) ∧
    callsOK false (run_sync env inp).trace = true := by
  rw [run_sync_ok_listing hl]
  obtain ⟨-, -, -, -, hprog, hcalls⟩ :=
    runCycle_master env inp.state0 inp.localList rl inp.fs0
  refine ⟨?_, hcalls⟩
  intro ph c t hmem hph
  have h := hprog _ hmem
  rw [progTotalOK, memB_iff.mpr hph] at h
  simpa using h

/-- C8 witness: at the counterexample input the published totals are all
`total_work = 0` and the call-after-progress discipline holds. -/
theorem C8_witness :
    (∀ ph c t, Ev.progress ph c t ∈ (run_sync okEnv inpC8).trace → ph ∈ execPhases →
      t = totalWork inpC8.state0 inpC8.localList rlC8) ∧
    callsOK false (run_sync okEnv inpC8).trace = true :=
  C8_progress_totals okEnv inpC8 rlC8 rfl

/-- Environment for the C9 counterexample: the local content now hashes to
the server's new hash. -/
def envC9 : SyncEnv := { okEnv with hashB := fun _ => "new" }

/-- C9 counterexample input: the prior state stores hash `"old"` for `a`;
this cycle, the planner observes the local hash equal to the server's
`"new"` and overwrites the entry. -/
def inpC9 : SyncInput where
  state0 := { paths := ["a"], downloaded_paths := [], file_hashes := [("a", "old")] }
  localList := [("a", 0)]
  listingRes := .ok [{ path := "a", mtime := 5, hash := some "new" }]
  fs0 := [("a", [1])]

/-- C9 counterexample: the cycle commits, and the loaded entry
`("a", "old")` is no longer present — it was overwritten by `("a", "new")` —
so the map does not "only grow" at the level of entries. -/
theorem C9_counterexample :
    savedStates (run_sync envC9 inpC9).trace =
      [{ paths := ["a"], downloaded_paths := [], file_hashes := [("a", "new")] }] ∧
    ("a", "old") ∈ inpC9.state0.file_hashes ∧
    ("a", "old") ∉
      ({ paths := ["a"], downloaded_paths := [], file_hashes := [("a", "new")] } :
        SyncStateFile).file_hashes := by
  decide

/-- C9 (amended): the *key set* of `file_hashes` only grows — every path
with an entry at cycle start still has an entry in any state committed that
cycle — but the stored value may be overwritten by a newly observed server
hash (see the counterexample). -/
theorem C9_hash_keys_monotone (env : SyncEnv) (inp : SyncInput)
    (s : SyncStateFile) (p : String)
    (hs : s ∈ savedStates (run_sync env inp).trace)
    (hp : (alGet inp.state0.file_hashes p).isSome = true) :
    (alGet s.file_hashes p).isSome = true := by
  cases hl : inp.listingRes with
  | error e =>
    rw [run_sync_err_listing hl] at hs
    simp [savedStates] at hs
  | ok rl =>
    rw [run_sync_ok_listing hl] at hs
    obtain ⟨-, -, -, hsaved, -, -⟩ :=
      runCycle_master env inp.state0 inp.localList rl inp.fs0
    obtain ⟨hfh, -, -⟩ := hsaved s hs
    rcases hfh p with heq | ⟨h, hh, -⟩
    · rw [heq]
      exact hp
    · rw [hh]
      rfl

/-- C9 witness: the amended theorem at the counterexample input — the key
`a` survives the overwrite. -/
theorem C9_witness :
    (alGet ({ paths := ["a"], downloaded_paths := [], file_hashes := [("a", "new")] } :
      SyncStateFile).file_hashes "a").isSome = true :=
  C9_hash_keys_monotone envC9 inpC9
    { paths := ["a"], downloaded_paths := [], file_hashes := [("a", "new")] }
    "a" (by decide) (by decide)

/-- Environment for C10: the download of any path fails with error string
`e`; every other effect succeeds. -/
def envC10 (e : String) : SyncEnv := { okEnv with downloadR := fun _ => .error e }

/-- C10 input: one remote-only file `a` whose local copy (left over on disk)
exists, so a 404-classified failure must delete it. -/
def inpC10 : SyncInput where
  state0 := { paths := [], downloaded_paths := [], file_hashes := [] }
  localList := []
  listingRes := .ok [{ path := "a", mtime := 5, hash := none }]
  fs0 := [("a", [9])]

/-- C10: `run_sync` classifies a failed download as file-gone-on-server —
deleting the local copy, recording the path as skipped, and finishing the
cycle with a warning — exactly when the transport error string contains the
substring "404" anywhere (`e.contains("404")` in the source); any other
download error aborts the cycle as `Download a: <e>` without saving state.
The classification looks only at the substring, regardless of where in the
message it occurs. -/
theorem C10_404_substring_classification (e : String) :
    (strContainsSub e "404" = true →
      (run_sync (envC10 e) inpC10).res =
        .ok (0, 0, some "1 download(s) skipped (permission denied or file gone on server)") ∧
      fsExists (run_sync (envC10 e) inpC10).fs "a" = false ∧
      savedStates (run_sync (envC10 e) inpC10).trace =
        [{ paths := [], downloaded_paths := [], file_hashes := [] }]) ∧
    (strContainsSub e "404" = false →
      (run_sync (envC10 e) inpC10).res = .error ("Download a: " ++ e) ∧
      savedStates (run_sync (envC10 e) inpC10).trace = []) := by
  constructor
  · intro h
    simp [run_sync, runCycle, inpC10, envC10, okEnv, initCx, delRemotePhase, delLocalPhase,
      downloadPhase, uploadPhase, commitResult, commitState, toDownloadPlan, downloadAdds,
      toUploadPlan, toDelRemote, toDelLocal, toDeleteRemote, toDeleteRemoteRaw, guardTriggered,
      toDeleteLocal, totalWork, sortByDepthDesc, sortStr, dedupAdj, setDiff, setInter, memB,
      lastSynced, currentLocal, currentRemote, remoteHash, remoteMt, remoteItem, fsExists,
      alGet, fsErase, fsWrite, h, baseSynced, savedStates, is_ignored, addSet, hmInsert,
      uploadPred, insertStr, insertByDepth, strLe, charListLe, normalizeSlashes, fileName,
      splitSlash, SYNC_IGNORE, pathDepth, lastGet]
    rfl
  · intro h
    simp [run_sync, runCycle, inpC10, envC10, okEnv, initCx, delRemotePhase, delLocalPhase,
      downloadPhase, uploadPhase, commitResult, commitState, toDownloadPlan, downloadAdds,
      toUploadPlan, toDelRemote, toDelLocal, toDeleteRemote, toDeleteRemoteRaw, guardTriggered,
      toDeleteLocal, totalWork, sortByDepthDesc, sortStr, dedupAdj, setDiff, setInter, memB,
      lastSynced, currentLocal, currentRemote, remoteHash, remoteMt, remoteItem, fsExists,
      alGet, fsErase, fsWrite, h, baseSynced, savedStates, is_ignored, addSet, hmInsert,
      uploadPred, insertStr, insertByDepth, strLe, charListLe, normalizeSlashes, fileName,
      splitSlash, SYNC_IGNORE, pathDepth, lastGet]

/-- C10 witness: an error whose message is a 500 — merely *mentioning* a
token containing "404" in its echoed body — is treated as file-gone: the
cycle succeeds with a warning and the stale local copy is removed. -/
theorem C10_witness :
    (run_sync (envC10 "500 Internal Server Error: body mentions token x404y") inpC10).res =
      .ok (0, 0, some "1 download(s) skipped (permission denied or file gone on server)") ∧
    fsExists (run_sync (envC10 "500 Internal Server Error: body mentions token x404y")
      inpC10).fs "a" = false ∧
    savedStates (run_sync (envC10 "500 Internal Server Error: body mentions token x404y")
      inpC10).trace = [{ paths := [], downloaded_paths := [], file_hashes := [] }] :=
  (C10_404_substring_classification
    "500 Internal Server Error: body mentions token x404y").1 (by decide)

/-- C4: for a path present in the local listing whose remote entry supplies a
hash equal to the locally recomputed hash of the file on disk, the path is
placed in neither `to_download` nor `to_upload`, regardless of how the local
and remote mtimes compare. -/
theorem C4_hash_equal_skips_transfer (hashB : Bytes → String) (fs : LocalFS)
    (st : SyncStateFile) (ll : List (String × Int)) (rl : List FileItem)
    (fh : List (String × String)) (p : String) (b : Bytes) (it : FileItem)
    (hloc : p ∈ ll.map Prod.fst)
    (hhash : remoteHash rl p = some (hashB b))
    (hitem : remoteItem rl p = some it) (hih : it.hash = some (hashB b))
    (hfs : alGet fs p = some b) :
    p ∉ (toDownloadPlan hashB fs st ll rl fh).1 ∧ p ∉ toUploadPlan hashB fs ll rl := by
  constructor
  · intro hq
    rcases mem_toDownloadPlan.mp hq with ⟨-, hnl, -, -⟩ | hadds
    · exact hnl (by rw [currentLocal, List.mem_dedup]; exact hloc)
    · exact downloadAdds_skip hhash hfs rfl ll fh hadds
  · intro hq
    obtain ⟨lm, -, -, hpred⟩ := mem_toUploadPlan.mp hq
    rw [uploadPred, hitem] at hpred
    simp only [hih, hfs] at hpred
    rw [if_pos (by simp)] at hpred
    cases hpred

/-- C4 witness: both sides hold `a` with matching content hash `"h"`; the
remote mtime is newer, yet `a` is neither downloaded nor uploaded. -/
theorem C4_witness :
    "a" ∉ (toDownloadPlan (fun _ => "h") [("a", [1])]
      { paths := [], downloaded_paths := [], file_hashes := [] } [("a", 0)]
      [{ path := "a", mtime := 5, hash := some "h" }] []).1 ∧
    "a" ∉ toUploadPlan (fun _ => "h") [("a", [1])] [("a", 0)]
      [{ path := "a", mtime := 5, hash := some "h" }] :=
  C4_hash_equal_skips_transfer (fun _ => "h") [("a", [1])]
    { paths := [], downloaded_paths := [], file_hashes := [] } [("a", 0)]
    [{ path := "a", mtime := 5, hash := some "h" }] [] "a" [1]
    { path := "a", mtime := 5, hash := some "h" }
    (by decide) (by decide) (by decide) (by decide) (by decide)
